import Mathlib

/-!
Verification of the TaskWeb repository: the `today_tasks.py` task tracker
(store model, due-time parsing, display sort, id assignment, mark/remove
commands) and the `workflow_server.py` HTTP endpoint (GET/POST of a JSON
workflow document).  Python code is shallowly embedded: machine-level
details that the scripts never rely on (float formatting, non-ASCII case
mapping, lone surrogates in strings) are outside the model and are noted
where relevant.
-/

namespace TaskWeb

/-! ## Task records (today_tasks.py data model)

A stored task is a JSON object with the five keys `id, text, due, done,
created_at`, in that insertion order (see `cmd_add`). -/

structure Task where
  id : Int
  text : String
  due : Option String
  done : Bool
  created_at : String
deriving DecidableEq, Repr

/-! ## Python string helpers used by the scripts

`str.strip()` removes leading/trailing whitespace; Python's notion of
whitespace for `str` is modelled by the code-point list below (ASCII
whitespace, the C1 controls 0x1c-0x1f, NEL, NBSP and the Unicode space
separators).  `str.upper()` is modelled on ASCII letters, which is all the
due-time parser ever distinguishes (`AM`/`PM`). -/

def pySpaceCodes : List Nat :=
  [9, 10, 11, 12, 13, 28, 29, 30, 31, 32, 133, 160, 0x1680,
   0x2000, 0x2001, 0x2002, 0x2003, 0x2004, 0x2005, 0x2006, 0x2007,
   0x2008, 0x2009, 0x200a, 0x2028, 0x2029, 0x202f, 0x205f, 0x3000]

def pyIsSpace (c : Char) : Bool := pySpaceCodes.contains c.toNat

def pyStripL (l : List Char) : List Char :=
  ((l.dropWhile pyIsSpace).reverse.dropWhile pyIsSpace).reverse

def pyStrip (s : String) : String := String.mk (pyStripL s.data)

def pyUpper (s : String) : String := String.mk (s.data.map Char.toUpper)

def digitVal (c : Char) : Nat := c.toNat - 48

/-- ASCII digit test (`\d` in the `_strptime` regexes). -/
def isDig (c : Char) : Bool := 48 ≤ c.toNat ∧ c.toNat ≤ 57

/-! ## strptime fragment for the three clock formats

`parse_due_key` tries `"%H:%M"`, `"%I:%M%p"`, `"%I%p"` on the uppercased,
stripped due string.  CPython's `_strptime` compiles each directive to a
regex - `%H` to `2[0-3]|[0-1]\d|\d`, `%M` to `[0-5]\d|\d`, `%I` to
`1[0-2]|0[1-9]|[1-9]`, `%p` to the locale AM/PM strings (case-insensitive,
and the input is already uppercased here) - matches the whole format
against a prefix of the string, and fails if characters remain.  Because
the character following each numeric directive in these three formats is
never a digit (`:`, `A`/`P`, or end of string), the regex alternations
never need to backtrack, so the greedy first-alternative matchers below
are exact. -/

def matchH : List Char → Option (Nat × List Char)
  | [] => none
  | [c] => if isDig c then some (digitVal c, []) else none
  | c :: c2 :: rest =>
    if c = '2' ∧ 48 ≤ c2.toNat ∧ c2.toNat ≤ 51 then some (20 + digitVal c2, rest)
    else if (c = '0' ∨ c = '1') ∧ isDig c2 then
      some (10 * digitVal c + digitVal c2, rest)
    else if isDig c then some (digitVal c, c2 :: rest)
    else none

def matchM : List Char → Option (Nat × List Char)
  | [] => none
  | [c] => if isDig c then some (digitVal c, []) else none
  | c :: c2 :: rest =>
    if 48 ≤ c.toNat ∧ c.toNat ≤ 53 ∧ isDig c2 then
      some (10 * digitVal c + digitVal c2, rest)
    else if isDig c then some (digitVal c, c2 :: rest)
    else none

def matchI : List Char → Option (Nat × List Char)
  | [] => none
  | [c] => if 49 ≤ c.toNat ∧ c.toNat ≤ 57 then some (digitVal c, []) else none
  | c :: c2 :: rest =>
    if c = '1' ∧ 48 ≤ c2.toNat ∧ c2.toNat ≤ 50 then some (10 + digitVal c2, rest)
    else if c = '0' ∧ 49 ≤ c2.toNat ∧ c2.toNat ≤ 57 then some (digitVal c2, rest)
    else if 49 ≤ c.toNat ∧ c.toNat ≤ 57 then some (digitVal c, c2 :: rest)
    else none

/-- `%p` on the uppercased input: `false` for AM, `true` for PM. -/
def matchP : List Char → Option (Bool × List Char)
  | 'A' :: 'M' :: rest => some (false, rest)
  | 'P' :: 'M' :: rest => some (true, rest)
  | _ => none

/-- 12-hour to 24-hour conversion as in `_strptime`: PM adds 12 except to
12, AM maps 12 to 0. -/
def hour12 (h : Nat) (pm : Bool) : Nat :=
  if pm then (if h = 12 then 12 else h + 12)
  else (if h = 12 then 0 else h)

/-- `strptime(s, "%H:%M")`, returning the minute of day. -/
def strpHM (s : List Char) : Option Nat :=
  match matchH s with
  | none => none
  | some (h, r) =>
    match r with
    | ':' :: r2 =>
      match matchM r2 with
      | some (m, []) => some (h * 60 + m)
      | _ => none
    | _ => none

/-- `strptime(s, "%I:%M%p")`, returning the minute of day. -/
def strpIMp (s : List Char) : Option Nat :=
  match matchI s with
  | none => none
  | some (h, r) =>
    match r with
    | ':' :: r2 =>
      match matchM r2 with
      | some (m, r3) =>
        match matchP r3 with
        | some (pm, []) => some (hour12 h pm * 60 + m)
        | _ => none
      | none => none
    | _ => none

/-- `strptime(s, "%I%p")`, returning the minute of day. -/
def strpIp (s : List Char) : Option Nat :=
  match matchI s with
  | none => none
  | some (h, r) =>
    match matchP r with
    | some (pm, []) => some (hour12 h pm * 60)
    | _ => none

/-- The three formats tried in the order of the `for fmt in (...)` loop. -/
def firstClockMatch (u : List Char) : Option Nat :=
  match strpHM u with
  | some m => some m
  | none =>
    match strpIMp u with
    | some m => some m
    | none => strpIp u

/-- `parse_due_key` (today_tasks.py lines 32-42).  A falsy due (absent or
empty) ranks 999999; otherwise the string is stripped and uppercased and
the three formats are tried in order; on failure the rank is 999998.  The
string component of the key is the *stripped* due string (the local `due`
variable is reassigned by `due = due.strip()` before being returned). -/
def parse_due_key (due : Option String) : Nat × String :=
  match due with
  | none => (999999, "")
  | some d =>
    if d = "" then (999999, "")
    else
      match firstClockMatch (pyUpper (pyStrip d)).data with
      | some m => (m, pyStrip d)
      | none => (999998, pyStrip d)

/-! ## Display sort (sort_tasks / cmd_list)

`sorted(tasks, key=lambda t: (t["done"],) + parse_due_key(t.get("due")))`:
a stable sort by the lexicographic triple (done, rank, string), where
Python orders `False < True` and compares strings by code point. -/

def sortKey (t : Task) : Bool × Nat × String := (t.done, parse_due_key t.due)

/-- Python's `<=` on strings: lexicographic comparison of code points. -/
def listLeB : List Char → List Char → Bool
  | [], _ => true
  | _ :: _, [] => false
  | c :: cs, d :: ds =>
    if c.toNat < d.toNat then true
    else if c.toNat = d.toNat then listLeB cs ds
    else false

def pyStrLE (a b : String) : Bool := listLeB a.data b.data

/-- Python's `<=` on the key triples `(done, rank, string)`: lexicographic
with `False < True` on booleans. -/
def keyLeB (a b : Bool × Nat × String) : Bool :=
  if a.1 = b.1 then
    if a.2.1 < b.2.1 then true
    else if a.2.1 = b.2.1 then pyStrLE a.2.2 b.2.2
    else false
  else a.1 = false

def taskLE (a b : Task) : Bool := keyLeB (sortKey a) (sortKey b)

/-- `sort_tasks` (today_tasks.py line 172); `cmd_list` sorts identically.
Python's `sorted` is a stable mergesort by the key. -/
def sort_tasks (l : List Task) : List Task := l.mergeSort taskLE

/-- The due-time rank of a task, as used by the sort. -/
def dueRank (t : Task) : Nat := (parse_due_key t.due).1

/-- The string tiebreak of a task, as used by the sort. -/
def dueStr (t : Task) : String := (parse_due_key t.due).2

/-- The ordering relation claimed by the specification: the same triple but
with the task's due string *as stored* ("original") as the tiebreak. -/
def specKeyLE (a b : Task) : Bool :=
  keyLeB (a.done, dueRank a, a.due.getD "") (b.done, dueRank b, b.due.getD "")

/-- Semantic classification of a task's due value: 0 = parseable clock
time, 1 = non-empty but unparseable, 2 = no due value (`None` or the empty
string, both falsy in `parse_due_key`). -/
def dueClass (t : Task) : Nat :=
  match t.due with
  | none => 2
  | some d =>
    if d = "" then 2
    else
      match firstClockMatch (pyUpper (pyStrip d)).data with
      | some _ => 0
      | none => 1

/-! ## Store operations (today_tasks.py) -/

def taskIds (ts : List Task) : List Int := ts.map Task.id

/-- Running maximum over the remaining ids, mirroring Python's `max`
folding over the generator starting from a first value. -/
def maxIdAux : List Task → Int → Int
  | [], m => m
  | t :: ts, m => maxIdAux ts (max m t.id)

/-- `next_id` (today_tasks.py line 28): `max((t["id"] ...), default=0) + 1`. -/
def next_id (ts : List Task) : Int :=
  (match ts with
   | [] => 0
   | t :: ts' => maxIdAux ts' t.id) + 1

/-- The due value stored by `cmd_add`: `args.due.strip() if args.due else
None` (absent or empty due is stored as null, otherwise stripped). -/
def addDue (due : Option String) : Option String :=
  match due with
  | none => none
  | some d => if d = "" then none else some (pyStrip d)

/-- The task constructed and appended by `cmd_add` (today_tasks.py lines
45-56); `now` stands for `datetime.now().isoformat(timespec="seconds")`. -/
def addTask (ts : List Task) (text : String) (due : Option String)
    (now : String) : List Task :=
  ts ++ [⟨next_id ts, pyStrip text, addDue due, false, now⟩]

/-- The search-and-mark loop of `cmd_done`/`cmd_undone`: the first task
with the given id gets its `done` field set; `none` means no task matched
(the loop fell through to the not-found message). -/
def markFirst (idv : Int) (val : Bool) : List Task → Option (List Task)
  | [] => none
  | t :: ts =>
    if t.id = idv then some (⟨t.id, t.text, t.due, val, t.created_at⟩ :: ts)
    else (markFirst idv val ts).map (t :: ·)

/-- The filter performed by `cmd_remove` (today_tasks.py line 97). -/
def removeTasks (idv : Int) (ts : List Task) : List Task :=
  ts.filter (fun t => t.id ≠ idv)

/-! ## JSON values (the json module)

Shallow embedding of the JSON fragment the two scripts exchange.  Numbers
without fraction or exponent are exact integers (CPython ints); a float
literal is kept as its uninterpreted literal parts in `fnum` (the scripts'
own data never contains floats, and CPython float formatting is outside
the model); `NaN`/`Infinity`/`-Infinity` are the constants CPython's
decoder accepts by default.  An object is a key-value list; the parser
collapses duplicate keys exactly like a Python dict (first occurrence
fixes the position, last value wins), so parsed objects always have
pairwise-distinct keys. -/

inductive Json where
  | null
  | bool (b : Bool)
  | int (n : Int)
  | fnum (neg : Bool) (ip fp ep : List Char)
  | nan
  | inf (neg : Bool)
  | str (s : String)
  | arr (items : List Json)
  | obj (fields : List (String × Json))

/-- JSON whitespace (`' \t\n\r'`). -/
def jsonWS (c : Char) : Bool := c = ' ' ∨ c = '\t' ∨ c = '\n' ∨ c = '\r'

def skipWS (s : List Char) : List Char := s.dropWhile jsonWS

def hexVal (c : Char) : Option Nat :=
  if 48 ≤ c.toNat ∧ c.toNat ≤ 57 then some (c.toNat - 48)
  else if 97 ≤ c.toNat ∧ c.toNat ≤ 102 then some (c.toNat - 87)
  else if 65 ≤ c.toNat ∧ c.toNat ≤ 70 then some (c.toNat - 55)
  else none

def hex4 (a b c d : Char) : Option Nat :=
  match hexVal a, hexVal b, hexVal c, hexVal d with
  | some x, some y, some z, some w => some (((x * 16 + y) * 16 + z) * 16 + w)
  | _, _, _, _ => none

/-- `chr(n)` for `n ≤ 0x10FFFF`.  A lone surrogate (which CPython would
keep inside the `str`) has no Lean `Char` counterpart and is mapped to
U+FFFD; no claim depends on such strings. -/
def mkScalar (n : Nat) : Char :=
  if 0xD800 ≤ n ∧ n ≤ 0xDFFF then '�' else Char.ofNat n

/-- The `BACKSLASH` escape table of the decoder. -/
def escMap : Char → Option Char
  | '"' => some '"'
  | '\\' => some '\\'
  | '/' => some '/'
  | 'b' => some (Char.ofNat 8)
  | 'f' => some (Char.ofNat 12)
  | 'n' => some '\n'
  | 'r' => some '\r'
  | 't' => some '\t'
  | _ => none

/-- One escape sequence after a backslash (non-recursive part of
`py_scanstring`): returns the decoded character and the remaining input.
A `\\uXXXX` escape is decoded, a high/low surrogate escape pair is
combined into one code point, and a lone surrogate escape stands alone
(`mkScalar`); a high surrogate escape followed by `\\u` and invalid or
missing hex is an error, and a high surrogate escape followed by a valid
non-low escape leaves the second escape to be scanned again. -/
def decodeEsc : List Char → Option (Char × List Char)
  | 'u' :: a :: b :: c3 :: d :: r3 =>
    match hex4 a b c3 d with
    | none => none
    | some n =>
      if 0xD800 ≤ n ∧ n ≤ 0xDBFF then
        match r3 with
        | x1 :: x2 :: a2 :: b2 :: c4 :: d2 :: r4 =>
          if x1 = '\\' ∧ x2 = 'u' then
            match hex4 a2 b2 c4 d2 with
            | none => none
            | some n2 =>
              if 0xDC00 ≤ n2 ∧ n2 ≤ 0xDFFF then
                some (mkScalar (0x10000 + (n - 0xD800) * 1024 + (n2 - 0xDC00)), r4)
              else some (mkScalar n, x1 :: x2 :: a2 :: b2 :: c4 :: d2 :: r4)
          else some (mkScalar n, x1 :: x2 :: a2 :: b2 :: c4 :: d2 :: r4)
        | '\\' :: 'u' :: _ => none
        | r3s => some (mkScalar n, r3s)
      else some (mkScalar n, r3)
  | 'u' :: _ => none
  | e :: r2 =>
    match escMap e with
    | none => none
    | some ce => some (ce, r2)
  | [] => none

/-- `py_scanstring` with `strict=True` (the `_json` C scanner behaves the
same on these inputs): scan the contents of a string literal after the
opening quote, returning the decoded characters and the input after the
closing quote.  Raw control characters are rejected.  The fuel only
bounds the recursion; every step consumes at least one character, so
`length + 1` is always enough. -/
def scanString : Nat → List Char → Option (List Char × List Char)
  | 0, _ => none
  | _ + 1, [] => none
  | fuel + 1, c :: rest =>
    if c = '"' then some ([], rest)
    else if c = '\\' then
      match decodeEsc rest with
      | none => none
      | some (ch, r2) =>
        match scanString fuel r2 with
        | some (cs, r5) => some (ch :: cs, r5)
        | none => none
    else if c.toNat < 32 then none
    else
      match scanString fuel rest with
      | some (cs, r5) => some (c :: cs, r5)
      | none => none

/-- Longest digit run, as matched by `\d*`/`\d+` in `NUMBER_RE`. -/
def spanDigits : List Char → List Char × List Char
  | [] => ([], [])
  | c :: r =>
    if isDig c then
      ((spanDigits r).1.cons c, (spanDigits r).2)
    else ([], c :: r)

def digitsVal (ds : List Char) : Nat := ds.foldl (fun a c => a * 10 + digitVal c) 0

/-- The optional `(\.\d+)?` group: a fraction is consumed only when the
dot is followed by at least one digit. -/
def scanFrac : List Char → List Char × List Char
  | [] => ([], [])
  | c :: r =>
    if c = '.' then
      match spanDigits r with
      | ([], _) => ([], c :: r)
      | (ds, r2) => (ds, r2)
    else ([], c :: r)

/-- The optional `([eE][-+]?\d+)?` group (sign kept with the digits). -/
def scanExp : List Char → List Char × List Char
  | [] => ([], [])
  | c :: r =>
    if c = 'e' ∨ c = 'E' then
      match r with
      | [] => ([], [c])
      | s2 :: r2 =>
        if s2 = '+' ∨ s2 = '-' then
          match spanDigits r2 with
          | ([], _) => ([], c :: s2 :: r2)
          | (ds, r3) => (s2 :: ds, r3)
        else
          match spanDigits r with
          | ([], _) => ([], c :: r)
          | (ds, r3) => (ds, r3)
    else ([], c :: r)

def scanNumTail (neg : Bool) (ip : List Char) (r : List Char) :
    Option (Json × List Char) :=
  match scanFrac r with
  | (fp, r2) =>
    match scanExp r2 with
    | (ep, r3) =>
      if fp = [] ∧ ep = [] then
        some (Json.int (if neg then -(digitsVal ip : Int) else (digitsVal ip : Int)), r3)
      else some (Json.fnum neg ip fp ep, r3)

def scanNumAfterSign (neg : Bool) : List Char → Option (Json × List Char)
  | [] => none
  | c :: r =>
    if c = '0' then scanNumTail neg ['0'] r
    else if 49 ≤ c.toNat ∧ c.toNat ≤ 57 then
      scanNumTail neg (c :: (spanDigits r).1) ((spanDigits r).2)
    else none

/-- `NUMBER_RE.match`: `(-?(?:0|[1-9]\d*))(\.\d+)?([eE][-+]?\d+)?`.  A
match with neither fraction nor exponent is an int, otherwise a float
literal. -/
def scanNumber : List Char → Option (Json × List Char)
  | [] => none
  | c :: r =>
    if c = '-' then scanNumAfterSign true r
    else scanNumAfterSign false (c :: r)

/-- Literal matching (`s[idx:idx+n] == lit`): returns the input after the
literal when it is present. -/
def afterLit : List Char → List Char → Option (List Char)
  | [], s => some s
  | _ :: _, [] => none
  | c :: p, d :: s => if c = d then afterLit p s else none

/-- First value bound to a key (parsed objects have distinct keys). -/
def objGet (kvs : List (String × Json)) (k : String) : Option Json :=
  match kvs with
  | [] => none
  | (k2, v) :: r => if k2 = k then some v else objGet r k

def eraseKey (k : String) : List (String × Json) → List (String × Json)
  | [] => []
  | (k2, v) :: r => if k2 = k then r else (k2, v) :: eraseKey k r

/-- Prepend an object member to the members parsed after it with Python
dict semantics: the first occurrence of a key fixes its position and the
last occurrence supplies the value. -/
def consMember (k : String) (v : Json) (tail : List (String × Json)) :
    List (String × Json) :=
  match objGet tail k with
  | some v2 => (k, v2) :: eraseKey k tail
  | none => (k, v) :: tail

/-!
`scan_once` / `JSONArray` / `JSONObject` of the decoder.  The fuel
argument only bounds the recursion (one unit per value and per collection
element); `jsonParse` supplies `length + 1`, which is enough since every
value and every element consumes at least one input character. -/
mutual

def parseValue : Nat → List Char → Option (Json × List Char)
  | 0, _ => none
  | fuel + 1, s =>
    match s with
    | [] => none
    | c :: rest =>
      if c = '"' then
        match scanString (rest.length + 1) rest with
        | some (cs, r) => some (Json.str (String.mk cs), r)
        | none => none
      else if c = '{' then
        match skipWS rest with
        | '}' :: r2 => some (Json.obj [], r2)
        | r1 =>
          match parseMembers fuel r1 with
          | some (kvs, r2) => some (Json.obj kvs, r2)
          | none => none
      else if c = '[' then
        match skipWS rest with
        | ']' :: r2 => some (Json.arr [], r2)
        | r1 =>
          match parseItems fuel r1 with
          | some (vs, r2) => some (Json.arr vs, r2)
          | none => none
      else
        match afterLit ['n','u','l','l'] s with
        | some r => some (Json.null, r)
        | none =>
          match afterLit ['t','r','u','e'] s with
          | some r => some (Json.bool true, r)
          | none =>
            match afterLit ['f','a','l','s','e'] s with
            | some r => some (Json.bool false, r)
            | none =>
              match scanNumber s with
              | some (v, r) => some (v, r)
              | none =>
                match afterLit ['N','a','N'] s with
                | some r => some (Json.nan, r)
                | none =>
                  match afterLit ['I','n','f','i','n','i','t','y'] s with
                  | some r => some (Json.inf false, r)
                  | none =>
                    match afterLit ['-','I','n','f','i','n','i','t','y'] s with
                    | some r => some (Json.inf true, r)
                    | none => none

def parseItems : Nat → List Char → Option (List Json × List Char)
  | 0, _ => none
  | fuel + 1, s =>
    match parseValue fuel s with
    | none => none
    | some (v, r) =>
      match skipWS r with
      | ']' :: r2 => some ([v], r2)
      | ',' :: r2 =>
        match parseItems fuel (skipWS r2) with
        | some (vs, r3) => some (v :: vs, r3)
        | none => none
      | _ => none

def parseMembers : Nat → List Char → Option (List (String × Json) × List Char)
  | 0, _ => none
  | fuel + 1, s =>
    match s with
    | '"' :: rest =>
      match scanString (rest.length + 1) rest with
      | some (kcs, r) =>
        match skipWS r with
        | ':' :: r2 =>
          match parseValue fuel (skipWS r2) with
          | some (v, r3) =>
            match skipWS r3 with
            | '}' :: r4 => some ([(String.mk kcs, v)], r4)
            | ',' :: r4 =>
              match skipWS r4 with
              | '"' :: r5 =>
                match parseMembers fuel ('"' :: r5) with
                | some (kvs, r6) => some (consMember (String.mk kcs) v kvs, r6)
                | none => none
              | _ => none
            | _ => none
          | none => none
        | _ => none
      | none => none
    | _ => none

end

/-- `json.loads` / `json.load`: skip leading whitespace, scan one value,
require only whitespace after it. -/
def jsonParse (s : String) : Option Json :=
  match parseValue (s.data.length + 1) (skipWS s.data) with
  | some (v, r) => if skipWS r = [] then some v else none
  | none => none

/-! ## JSON encoder (json.dump / json.dumps with ensure_ascii) -/

def hexDigit (d : Nat) : Char :=
  match d with
  | 0 => '0' | 1 => '1' | 2 => '2' | 3 => '3' | 4 => '4'
  | 5 => '5' | 6 => '6' | 7 => '7' | 8 => '8' | 9 => '9'
  | 10 => 'a' | 11 => 'b' | 12 => 'c' | 13 => 'd' | 14 => 'e'
  | _ => 'f'

def toHex4 (n : Nat) : List Char :=
  [hexDigit (n / 4096 % 16), hexDigit (n / 256 % 16),
   hexDigit (n / 16 % 16), hexDigit (n % 16)]

/-- `py_encode_basestring_ascii` on one character: short escapes for the
seven special characters, printable ASCII kept, everything else as
lowercase `\uXXXX` (a surrogate pair for code points above 0xFFFF). -/
def escChar (c : Char) : List Char :=
  if c = '"' then ['\\', '"']
  else if c = '\\' then ['\\', '\\']
  else if c.toNat = 8 then ['\\', 'b']
  else if c.toNat = 12 then ['\\', 'f']
  else if c.toNat = 10 then ['\\', 'n']
  else if c.toNat = 13 then ['\\', 'r']
  else if c.toNat = 9 then ['\\', 't']
  else if 32 ≤ c.toNat ∧ c.toNat ≤ 126 then [c]
  else if c.toNat < 0x10000 then '\\' :: 'u' :: toHex4 c.toNat
  else
    ('\\' :: 'u' :: toHex4 (0xD800 + (c.toNat - 0x10000) / 1024)) ++
      ('\\' :: 'u' :: toHex4 (0xDC00 + (c.toNat - 0x10000) % 1024))

def escList : List Char → List Char
  | [] => []
  | c :: cs => escChar c ++ escList cs

def escString (s : String) : List Char := '"' :: (escList s.data ++ ['"'])

def natDigitsF : Nat → Nat → List Char
  | 0, n => [hexDigit (n % 10)]
  | fuel + 1, n =>
    if n < 10 then [hexDigit n]
    else natDigitsF fuel (n / 10) ++ [hexDigit (n % 10)]

/-- Decimal digits of `n` (the fuel `n + 1` always suffices since the
value shrinks at every step). -/
def natDigits (n : Nat) : List Char := natDigitsF (n + 1) n

/-- `int.__repr__`. -/
def intChars (i : Int) : List Char :=
  if i < 0 then '-' :: natDigits i.natAbs else natDigits i.toNat

/-- Atoms (everything but arrays and objects).  A `fnum` is printed back
as its literal parts; CPython would print `repr(float)` instead, which the
well-formedness predicate below excludes from every round-trip claim. -/
def printAtom : Json → List Char
  | Json.null => ['n','u','l','l']
  | Json.bool true => ['t','r','u','e']
  | Json.bool false => ['f','a','l','s','e']
  | Json.int i => intChars i
  | Json.fnum neg ip fp ep =>
    (if neg then ['-'] else []) ++ ip ++
      (if fp = [] then [] else '.' :: fp) ++ (if ep = [] then [] else 'e' :: ep)
  | Json.nan => ['N','a','N']
  | Json.inf false => ['I','n','f','i','n','i','t','y']
  | Json.inf true => ['-','I','n','f','i','n','i','t','y']
  | Json.str s => escString s
  | Json.arr _ => []
  | Json.obj _ => []

def indent (lvl : Nat) : List Char := List.replicate (2 * lvl) ' '

/-!
`json.dump(obj, f, indent=2)`: with an indent the default separators are
`(',', ': ')`, each element starts on its own line at the next level, and
the closing bracket returns to the enclosing level. -/
mutual

def printJ : Nat → Json → List Char
  | lvl, Json.arr [] =>
    let _ := lvl
    ['[', ']']
  | lvl, Json.arr (x :: xs) =>
    '[' :: '\n' :: (indent (lvl + 1) ++ printJ (lvl + 1) x ++
      printArrTail (lvl + 1) xs ++ '\n' :: (indent lvl ++ [']']))
  | lvl, Json.obj [] =>
    let _ := lvl
    ['{', '}']
  | lvl, Json.obj ((k, v) :: kvs) =>
    '{' :: '\n' :: (indent (lvl + 1) ++ escString k ++ ':' :: ' ' ::
      (printJ (lvl + 1) v ++ printObjTail (lvl + 1) kvs ++
        '\n' :: (indent lvl ++ ['}'])))
  | _, j => printAtom j

def printArrTail : Nat → List Json → List Char
  | _, [] => []
  | lvl, x :: xs =>
    ',' :: '\n' :: (indent lvl ++ printJ lvl x ++ printArrTail lvl xs)

def printObjTail : Nat → List (String × Json) → List Char
  | _, [] => []
  | lvl, (k, v) :: kvs =>
    ',' :: '\n' :: (indent lvl ++ escString k ++ ':' :: ' ' ::
      (printJ lvl v ++ printObjTail lvl kvs))

end

/-! `json.dumps(obj)` with default separators `(', ', ': ')`. -/
mutual

def printC : Json → List Char
  | Json.arr [] => ['[', ']']
  | Json.arr (x :: xs) => '[' :: (printC x ++ printCArrTail xs ++ [']'])
  | Json.obj [] => ['{', '}']
  | Json.obj ((k, v) :: kvs) =>
    '{' :: (escString k ++ ':' :: ' ' :: (printC v ++ printCObjTail kvs ++ ['}']))
  | j => printAtom j

def printCArrTail : List Json → List Char
  | [] => []
  | x :: xs => ',' :: ' ' :: (printC x ++ printCArrTail xs)

def printCObjTail : List (String × Json) → List Char
  | [] => []
  | (k, v) :: kvs =>
    ',' :: ' ' :: (escString k ++ ':' :: ' ' :: (printC v ++ printCObjTail kvs))

end

/-! ## Well-formedness and fuel bound for round trips -/

def keyMem (k : String) : List (String × Json) → Bool
  | [] => false
  | (k2, _) :: r => k = k2 || keyMem k r

def keysNodupB : List (String × Json) → Bool
  | [] => true
  | (k, _) :: r => !keyMem k r && keysNodupB r

/-!
Well-formed values, whose printed form parses back to the same value: no
float literals or non-finite constants, and object keys pairwise
distinct. -/
mutual

def wfJson : Json → Bool
  | Json.null => true
  | Json.bool _ => true
  | Json.int _ => true
  | Json.str _ => true
  | Json.fnum _ _ _ _ => false
  | Json.nan => false
  | Json.inf _ => false
  | Json.arr xs => wfItems xs
  | Json.obj kvs => keysNodupB kvs && wfMembers kvs

def wfItems : List Json → Bool
  | [] => true
  | x :: xs => wfJson x && wfItems xs

def wfMembers : List (String × Json) → Bool
  | [] => true
  | (_, v) :: kvs => wfJson v && wfMembers kvs

end

/-!
Fuel consumed by the parser on a printed value: one unit per value plus
one per collection element. -/
mutual

def fuelJ : Json → Nat
  | Json.arr xs => 1 + fuelItems xs
  | Json.obj kvs => 1 + fuelMembers kvs
  | _ => 1

def fuelItems : List Json → Nat
  | [] => 0
  | x :: xs => 1 + fuelJ x + fuelItems xs

def fuelMembers : List (String × Json) → Nat
  | [] => 0
  | (_, v) :: kvs => 1 + fuelJ v + fuelMembers kvs

end

/-- A context that cannot extend a numeric literal to its left: the
round-trip lemmas require the characters following a printed value not to
begin with a digit, `.`, `e` or `E` (every printed separator and closer
satisfies this). -/
def numSafe (rest : List Char) : Prop :=
  match rest with
  | [] => True
  | c :: _ => isDig c = false ∧ c ≠ '.' ∧ c ≠ 'e' ∧ c ≠ 'E'

/-! ## today_tasks.py persistence (load_tasks / save_tasks) -/

/-- `load_tasks` (today_tasks.py lines 13-20): a missing file or a
`json.JSONDecodeError` yields the empty list; otherwise the parsed JSON is
returned unchecked. -/
def load_tasks (file : Option String) : Json :=
  match file with
  | none => Json.arr []
  | some content =>
    match jsonParse content with
    | some j => j
    | none => Json.arr []

/-- `save_tasks` (today_tasks.py lines 23-25): `json.dump(tasks, f,
indent=2, sort_keys=False)`. -/
def save_tasks (j : Json) : String := String.mk (printJ 0 j)

/-- A stored task as the JSON object `cmd_add` builds (insertion order
`id, text, due, done, created_at`). -/
def taskToJson (t : Task) : Json :=
  Json.obj [("id", Json.int t.id), ("text", Json.str t.text),
    ("due", match t.due with | none => Json.null | some d => Json.str d),
    ("done", Json.bool t.done), ("created_at", Json.str t.created_at)]

def tasksToJson (ts : List Task) : Json := Json.arr (ts.map taskToJson)

def dumpTasks (ts : List Task) : String := save_tasks (tasksToJson ts)

/-! ## cmd_done / cmd_undone at the store-file level -/

/-- Python `t["id"] == args.id` where `args.id` is an int: ints compare by
value, bools compare as 0/1, any other value is unequal.  (Float/int
equality is outside the model; well-formed stores hold int ids.) -/
def pyEqInt (v : Json) (n : Int) : Bool :=
  match v with
  | Json.int m => m = n
  | Json.bool b => (if b then (1 : Int) else 0) = n
  | _ => false

/-- `t["done"] = val` on a dict: replace the value in place if the key
exists (dict keys are unique), else append. -/
def objSet (kvs : List (String × Json)) (k : String) (v : Json) :
    List (String × Json) :=
  if keyMem k kvs then kvs.map (fun p => if p.1 = k then (p.1, v) else p)
  else kvs ++ [(k, v)]

inductive MarkOutcome where
  | marked
  | notFound
  | crashed
deriving DecidableEq, Repr

/-- The `for t in tasks: if t["id"] == args.id: ...` loop of
`cmd_done`/`cmd_undone` over the loaded JSON list.  `none` models an
uncaught exception (`t` not a dict, or no `"id"` key); `some none` means
the loop fell through (not found); `some (some items)` is the mutated
list, first match only. -/
def markItems (idv : Int) (val : Bool) : List Json → Option (Option (List Json))
  | [] => some none
  | item :: rest =>
    match item with
    | Json.obj kvs =>
      match objGet kvs "id" with
      | none => none
      | some v =>
        if pyEqInt v idv then
          some (some (Json.obj (objSet kvs "done" (Json.bool val)) :: rest))
        else
          match markItems idv val rest with
          | none => none
          | some none => some none
          | some (some rest2) => some (some (item :: rest2))
    | _ => none

/-- `cmd_done`/`cmd_undone` (today_tasks.py lines 73-92) as a transformer
of the store file: load, scan for the id, and either write the mutated
list back (found), print not-found and leave the file alone, or raise.
A loaded non-list (or a list with a non-dict element) raises `TypeError` /
`KeyError`, except that iterating an empty dict or empty string runs the
loop zero times and reports not-found. -/
def cmd_mark_file (idv : Int) (val : Bool) (file : Option String) :
    Option String × MarkOutcome :=
  match load_tasks file with
  | Json.arr items =>
    match markItems idv val items with
    | none => (file, MarkOutcome.crashed)
    | some none => (file, MarkOutcome.notFound)
    | some (some items2) =>
      (some (save_tasks (Json.arr items2)), MarkOutcome.marked)
  | Json.obj [] => (file, MarkOutcome.notFound)
  | Json.str s => if s.data = [] then (file, MarkOutcome.notFound)
      else (file, MarkOutcome.crashed)
  | _ => (file, MarkOutcome.crashed)

def cmd_done_file (idv : Int) (file : Option String) :
    Option String × MarkOutcome := cmd_mark_file idv true file

def cmd_undone_file (idv : Int) (file : Option String) :
    Option String × MarkOutcome := cmd_mark_file idv false file

/-! ## workflow_server.py (WorkflowHandler) -/

inductive HttpReply where
  | err (code : Nat)
  | ok (payload : Json) (body : String) (contentLength : Nat)
  | noContent
  | crashed

def printCompact (j : Json) : String := String.mk (printC j)

/-- `_send_json` (workflow_server.py lines 67-73): 200, body
`json.dumps(payload).encode("utf-8")`, `Content-Length` set to the byte
length of that body. -/
def send_json (j : Json) : HttpReply :=
  HttpReply.ok j (printCompact j) (printCompact j).utf8ByteSize

/-- `_handle_get` (workflow_server.py lines 33-43): 404 when the document
file is missing, 500 when it cannot be parsed, else `_send_json` of the
parsed document. -/
def handle_get (file : Option String) : HttpReply :=
  match file with
  | none => HttpReply.err 404
  | some content =>
    match jsonParse content with
    | none => HttpReply.err 500
    | some j => send_json j

/-- `payload.get(k, default)` on a dict. -/
def pyGet (kvs : List (String × Json)) (k : String) (d : Json) : Json :=
  match objGet kvs k with
  | some v => v
  | none => d

def docJson (tasks edges : List Json) : Json :=
  Json.obj [("tasks", Json.arr tasks), ("edges", Json.arr edges)]

/-- `_handle_post` (workflow_server.py lines 45-65): unparseable body is a
400; a parsed non-object crashes (`payload.get` raises `AttributeError`,
so no HTTP response is sent); a non-list `tasks` or `edges` is a 400;
otherwise the document file is overwritten with exactly
`{"tasks": ..., "edges": ...}` (indent=2) and a bodyless 204 is sent. -/
def handle_post (body : String) (file : Option String) :
    HttpReply × Option String :=
  match jsonParse body with
  | none => (HttpReply.err 400, file)
  | some (Json.obj kvs) =>
    match pyGet kvs "tasks" (Json.arr []), pyGet kvs "edges" (Json.arr []) with
    | Json.arr ts, Json.arr es =>
      (HttpReply.noContent, some (String.mk (printJ 0 (docJson ts es))))
    | _, _ => (HttpReply.err 400, file)
  | some _ => (HttpReply.crashed, file)

/-! ## Order lemmas for the sort comparator -/

theorem listLeB_refl (a : List Char) : listLeB a a = true := by
  induction a with
  | nil => rfl
  | cons c cs ih => simp [listLeB, ih]

theorem listLeB_total (a b : List Char) : listLeB a b = true ∨ listLeB b a = true := by
  induction a generalizing b with
  | nil => left; rfl
  | cons c cs ih =>
    cases b with
    | nil => right; rfl
    | cons d ds =>
      rcases Nat.lt_trichotomy c.toNat d.toNat with h | h | h
      · left; simp [listLeB, h]
      · rcases ih ds with h' | h' <;> [left; right] <;>
          simp [listLeB, h, h', Nat.lt_irrefl]
      · right; simp [listLeB, h]

theorem listLeB_trans {a b c : List Char} (h1 : listLeB a b = true)
    (h2 : listLeB b c = true) : listLeB a c = true := by
  induction a generalizing b c with
  | nil => rfl
  | cons x xs ih =>
    cases b with
    | nil => simp [listLeB] at h1
    | cons y ys =>
      cases c with
      | nil => simp [listLeB] at h2
      | cons z zs =>
        simp only [listLeB] at h1 h2 ⊢
        split_ifs at h1 h2 ⊢ <;>
          first
            | rfl
            | (exact ih h1 h2)
            | omega

theorem keyLeB_total (a b : Bool × Nat × String) :
    keyLeB a b = true ∨ keyLeB b a = true := by
  unfold keyLeB
  cases a1 : a.1 <;> cases b1 : b.1 <;> simp [pyStrLE, a1, b1]
  all_goals
    rcases Nat.lt_trichotomy a.2.1 b.2.1 with h | h | h
  · left; left; exact h
  · rcases listLeB_total a.2.2.data b.2.2.data with hs | hs
    · left; right; exact ⟨h, hs⟩
    · right; right; exact ⟨h.symm, hs⟩
  · right; left; exact h
  · left; left; exact h
  · rcases listLeB_total a.2.2.data b.2.2.data with hs | hs
    · left; right; exact ⟨h, hs⟩
    · right; right; exact ⟨h.symm, hs⟩
  · right; left; exact h

theorem keyLeB_trans {a b c : Bool × Nat × String} (h1 : keyLeB a b = true)
    (h2 : keyLeB b c = true) : keyLeB a c = true := by
  unfold keyLeB at h1 h2 ⊢
  cases a1 : a.1 <;> cases b1 : b.1 <;> cases c1 : c.1 <;>
    simp_all [pyStrLE]
  all_goals
    rcases h1 with h1 | ⟨e1, s1⟩ <;> rcases h2 with h2 | ⟨e2, s2⟩
  · left; omega
  · left; omega
  · left; omega
  · right; exact ⟨e1.trans e2, listLeB_trans s1 s2⟩
  · left; omega
  · left; omega
  · left; omega
  · right; exact ⟨e1.trans e2, listLeB_trans s1 s2⟩

theorem taskLE_trans : ∀ (a b c : Task),
    taskLE a b → taskLE b c → taskLE a c := by
  intro a b c h1 h2
  exact keyLeB_trans h1 h2

theorem taskLE_total : ∀ (a b : Task), taskLE a b || taskLE b a := by
  intro a b
  rcases keyLeB_total (sortKey a) (sortKey b) with h | h <;>
    simp [taskLE, h]

theorem taskLE_of_eq_key {a b : Task} (h : sortKey a = sortKey b) :
    taskLE a b = true := by
  unfold taskLE keyLeB
  rw [h]
  simp [pyStrLE, listLeB_refl]

/-! ## Bounds for the due-time parser -/

theorem matchH_bound {s : List Char} {h r} (e : matchH s = some (h, r)) :
    h ≤ 23 := by
  unfold matchH at e
  split at e
  · exact absurd e (by simp)
  · split_ifs at e with hd
    simp only [Option.some.injEq, Prod.mk.injEq] at e
    simp only [isDig, decide_eq_true_eq] at hd
    unfold digitVal at e
    omega
  · rename_i c c2 rest
    split_ifs at e with h1 h2 h3
    · obtain ⟨-, hb1, hb2⟩ := h1
      simp only [Option.some.injEq, Prod.mk.injEq] at e
      unfold digitVal at e
      omega
    · obtain ⟨hc, hd2⟩ := h2
      simp only [Option.some.injEq, Prod.mk.injEq] at e
      simp only [isDig, decide_eq_true_eq] at hd2
      have hcn : c.toNat = 48 ∨ c.toNat = 49 := by
        rcases hc with rfl | rfl
        · left; rfl
        · right; rfl
      unfold digitVal at e
      omega
    · simp only [Option.some.injEq, Prod.mk.injEq] at e
      simp only [isDig, decide_eq_true_eq] at h3
      unfold digitVal at e
      omega

theorem matchM_bound {s : List Char} {m r} (e : matchM s = some (m, r)) :
    m ≤ 59 := by
  unfold matchM at e
  split at e
  · exact absurd e (by simp)
  · split_ifs at e with hd
    simp only [Option.some.injEq, Prod.mk.injEq] at e
    simp only [isDig, decide_eq_true_eq] at hd
    unfold digitVal at e
    omega
  · split_ifs at e with h1 h2
    · obtain ⟨hb1, hb2, hd2⟩ := h1
      simp only [Option.some.injEq, Prod.mk.injEq] at e
      simp only [isDig, decide_eq_true_eq] at hd2
      unfold digitVal at e
      omega
    · simp only [Option.some.injEq, Prod.mk.injEq] at e
      simp only [isDig, decide_eq_true_eq] at h2
      unfold digitVal at e
      omega

theorem matchI_bound {s : List Char} {h r} (e : matchI s = some (h, r)) :
    h ≤ 12 := by
  unfold matchI at e
  split at e
  · exact absurd e (by simp)
  · split_ifs at e with hd
    simp only [Option.some.injEq, Prod.mk.injEq] at e
    unfold digitVal at e
    omega
  · split_ifs at e with h1 h2 h3
    · obtain ⟨-, hb1, hb2⟩ := h1
      simp only [Option.some.injEq, Prod.mk.injEq] at e
      unfold digitVal at e
      omega
    · obtain ⟨-, hb1, hb2⟩ := h2
      simp only [Option.some.injEq, Prod.mk.injEq] at e
      unfold digitVal at e
      omega
    · obtain ⟨hb1, hb2⟩ := h3
      simp only [Option.some.injEq, Prod.mk.injEq] at e
      unfold digitVal at e
      omega

theorem hour12_bound {h : Nat} (hb : h ≤ 12) (pm : Bool) :
    hour12 h pm ≤ 23 := by
  unfold hour12
  split_ifs <;> omega

theorem firstClockMatch_bound {u : List Char} {m : Nat}
    (e : firstClockMatch u = some m) : m ≤ 1439 := by
  unfold firstClockMatch at e
  split at e
  · rename_i heq
    unfold strpHM at heq
    split at heq <;> try simp_all
    rename_i h r eH
    split at heq <;> try simp_all
    split at heq <;> try simp_all
    rename_i m' eM
    have := matchH_bound eH
    have := matchM_bound eM
    omega
  · split at e
    · rename_i heq
      unfold strpIMp at heq
      split at heq <;> try simp_all
      rename_i h r eI
      split at heq <;> try simp_all
      split at heq <;> try simp_all
      rename_i m' r3 eM
      split at heq <;> try simp_all
      rename_i pm ePm
      have := matchI_bound eI
      have := matchM_bound eM
      have := hour12_bound (matchI_bound eI) pm
      omega
    · unfold strpIp at e
      split at e <;> try simp_all
      rename_i h r eI
      split at e <;> try simp_all
      rename_i pm ePm
      have := hour12_bound (matchI_bound eI) pm
      omega

/-- Rank values realised by each due class. -/
theorem dueClass_rank (t : Task) :
    (dueClass t = 0 ∧ dueRank t ≤ 1439) ∨
    (dueClass t = 1 ∧ dueRank t = 999998) ∨
    (dueClass t = 2 ∧ dueRank t = 999999) := by
  unfold dueClass dueRank parse_due_key
  cases t.due with
  | none => right; right; simp
  | some d =>
    by_cases hd : d = ""
    · right; right; simp [hd]
    · simp only [hd, if_false]
      cases e : firstClockMatch (pyUpper (pyStrip d)).data with
      | none => right; left; simp
      | some m => left; exact ⟨rfl, firstClockMatch_bound e⟩

theorem dueClass_mono {a b : Task} (h : dueRank a ≤ dueRank b) :
    dueClass a ≤ dueClass b := by
  rcases dueClass_rank a with ⟨c1, r1⟩ | ⟨c1, r1⟩ | ⟨c1, r1⟩ <;>
    rcases dueClass_rank b with ⟨c2, r2⟩ | ⟨c2, r2⟩ | ⟨c2, r2⟩ <;>
      omega

/-! ## Id-assignment lemmas -/

theorem maxIdAux_le : ∀ (ts : List Task) (m : Int), m ≤ maxIdAux ts m := by
  intro ts
  induction ts with
  | nil => intro m; exact le_refl m
  | cons t ts ih =>
    intro m
    calc m ≤ max m t.id := le_max_left _ _
    _ ≤ maxIdAux ts (max m t.id) := ih _
    _ = maxIdAux (t :: ts) m := rfl

theorem mem_le_maxIdAux : ∀ (ts : List Task) (m : Int) (t : Task),
    t ∈ ts → t.id ≤ maxIdAux ts m := by
  intro ts
  induction ts with
  | nil => intro m t h; cases h
  | cons u us ih =>
    intro m t h
    rcases List.mem_cons.mp h with rfl | h'
    · calc t.id ≤ max m t.id := le_max_right _ _
      _ ≤ maxIdAux us (max m t.id) := maxIdAux_le _ _
      _ = maxIdAux (t :: us) m := rfl
    · exact ih _ t h'

theorem lt_next_id {ts : List Task} {t : Task} (h : t ∈ ts) :
    t.id < next_id ts := by
  cases ts with
  | nil => cases h
  | cons u us =>
    have hn : next_id (u :: us) = maxIdAux us u.id + 1 := rfl
    rw [hn]
    rcases List.mem_cons.mp h with rfl | h'
    · have : t.id ≤ maxIdAux us t.id := maxIdAux_le _ _
      omega
    · have : t.id ≤ maxIdAux us u.id := mem_le_maxIdAux _ _ _ h'
      omega

theorem next_id_not_mem (ts : List Task) : next_id ts ∉ taskIds ts := by
  intro h
  rcases List.mem_map.mp h with ⟨t, ht, hid⟩
  have := lt_next_id ht
  omega

theorem markFirst_ids : ∀ {ts ts' : List Task} {idv : Int} {val : Bool},
    markFirst idv val ts = some ts' → taskIds ts' = taskIds ts := by
  intro ts
  induction ts with
  | nil => intro ts' idv val h; exact absurd h (by simp [markFirst])
  | cons t us ih =>
    intro ts' idv val h
    unfold markFirst at h
    split_ifs at h with hid
    · cases h.symm
      simp [taskIds]
    · cases e : markFirst idv val us with
      | none => rw [e] at h; exact absurd h (by simp)
      | some us' =>
        rw [e] at h
        simp only [Option.map_some'] at h
        cases h.symm
        have := ih e
        simp only [taskIds] at this ⊢
        simp [this]

/-! ## Sort: sortedness consequences and stability -/

theorem keyLeB_eq_true_iff (a b : Bool × Nat × String) :
    keyLeB a b = true ↔
      ((a.1 = false ∧ b.1 = true) ∨
       (a.1 = b.1 ∧ (a.2.1 < b.2.1 ∨
         (a.2.1 = b.2.1 ∧ pyStrLE a.2.2 b.2.2 = true)))) := by
  unfold keyLeB
  cases ha : a.1 <;> cases hb : b.1 <;> simp [ha, hb]

theorem taskLE_eq_true_iff (a b : Task) :
    taskLE a b = true ↔
      ((a.done = false ∧ b.done = true) ∨
       (a.done = b.done ∧ (dueRank a < dueRank b ∨
         (dueRank a = dueRank b ∧ pyStrLE (dueStr a) (dueStr b) = true)))) :=
  keyLeB_eq_true_iff (sortKey a) (sortKey b)

theorem taskLE_done {a b : Task} (h : taskLE a b = true) (ha : a.done = true) :
    b.done = true := by
  rcases (taskLE_eq_true_iff a b).mp h with ⟨h1, -⟩ | ⟨h1, -⟩
  · rw [ha] at h1; cases h1
  · rw [← h1]; exact ha

theorem taskLE_rank {a b : Task} (h : taskLE a b = true)
    (hd : a.done = b.done) : dueRank a ≤ dueRank b := by
  rcases (taskLE_eq_true_iff a b).mp h with ⟨h1, h2⟩ | ⟨-, h2 | ⟨h2, -⟩⟩
  · rw [h1, h2] at hd; cases hd
  · exact le_of_lt h2
  · exact le_of_eq h2

theorem taskLE_str {a b : Task} (h : taskLE a b = true) (hd : a.done = b.done)
    (hr : dueRank a = dueRank b) : pyStrLE (dueStr a) (dueStr b) = true := by
  rcases (taskLE_eq_true_iff a b).mp h with ⟨h1, h2⟩ | ⟨-, h2 | ⟨-, h2⟩⟩
  · rw [h1, h2] at hd; cases hd
  · omega
  · exact h2

theorem sort_tasks_stable (l : List Task) (k : Bool × Nat × String) :
    (sort_tasks l).filter (fun t => decide (sortKey t = k)) =
      l.filter (fun t => decide (sortKey t = k)) := by
  have hmemk : ∀ t ∈ l.filter (fun t => decide (sortKey t = k)), sortKey t = k := by
    intro t ht
    have := List.of_mem_filter ht
    simpa using this
  have hpair : (l.filter (fun t => decide (sortKey t = k))).Pairwise
      (fun a b => taskLE a b = true) := by
    apply List.pairwise_of_forall_mem_list
    intro a ha b hb
    exact taskLE_of_eq_key ((hmemk a ha).trans (hmemk b hb).symm)
  have hsub : List.Sublist (l.filter (fun t => decide (sortKey t = k)))
      (sort_tasks l) :=
    List.sublist_mergeSort taskLE_trans taskLE_total hpair (List.filter_sublist l)
  have hsub2 : List.Sublist (l.filter (fun t => decide (sortKey t = k)))
      ((sort_tasks l).filter (fun t => decide (sortKey t = k))) := by
    have h3 := hsub.filter (fun t => decide (sortKey t = k))
    rwa [List.filter_eq_self.mpr (fun a ha => by simp [hmemk a ha])] at h3
  have hperm : List.Perm ((sort_tasks l).filter (fun t => decide (sortKey t = k)))
      (l.filter (fun t => decide (sortKey t = k))) :=
    (List.mergeSort_perm l taskLE).filter _
  exact (hsub2.eq_of_length hperm.length_eq.symm).symm

/-! ## Claim theorems for today_tasks.py -/

/-- C1, counterexample.  The claim says the display sort orders tasks by
the triple (done, due rank, *original* due string).  The code's tiebreak is
the *stripped* due string returned by `parse_due_key`, not the stored due
string.  With `t1.due = "2:30PM"` and `t2.due = " 2:30PM"` (leading space,
same parsed minute), both sort keys are equal, so the stable sort keeps
`[t1, t2]`; but under the claimed triple `t2` must strictly precede `t1`
(`" 2:30PM" < "2:30PM"` by code point), so the output is not ordered by
the claimed triple. -/
theorem claim_C1_counterexample :
    sort_tasks [⟨1, "a", some "2:30PM", false, "t"⟩,
        ⟨2, "b", some " 2:30PM", false, "t"⟩] =
      [⟨1, "a", some "2:30PM", false, "t"⟩,
       ⟨2, "b", some " 2:30PM", false, "t"⟩] ∧
    specKeyLE ⟨1, "a", some "2:30PM", false, "t"⟩
        ⟨2, "b", some " 2:30PM", false, "t"⟩ = false ∧
    ¬ (sort_tasks [⟨1, "a", some "2:30PM", false, "t"⟩,
        ⟨2, "b", some " 2:30PM", false, "t"⟩]).Pairwise
      (fun a b => specKeyLE a b = true) := by
  have hs : sort_tasks [(⟨1, "a", some "2:30PM", false, "t"⟩ : Task),
      ⟨2, "b", some " 2:30PM", false, "t"⟩] =
      [⟨1, "a", some "2:30PM", false, "t"⟩,
       ⟨2, "b", some " 2:30PM", false, "t"⟩] := by
    apply List.mergeSort_of_sorted
    simp only [List.pairwise_cons, List.mem_singleton, List.Pairwise.nil]
    refine ⟨?_, by simp⟩
    intro b hb
    rw [hb]
    decide
  refine ⟨hs, by decide, ?_⟩
  rw [hs]
  intro hp
  rcases List.pairwise_cons.mp hp with ⟨h1, -⟩
  have := h1 _ (List.mem_singleton.mpr rfl)
  revert this
  decide

/-- C1, amended: for every task collection, `sort_tasks` is a permutation
of the input, stable (elements with equal sort key keep their relative
order), and pairwise ordered by the triple (done ascending, due-rank
ascending, *stripped*-due-string ascending).  Consequently incomplete
tasks precede completed ones; within each completion group tasks with a
parseable due time (class 0) precede unparseable ones (class 1), which
precede tasks with no due value (class 2); and among equal ranks the
stripped due string is the lexicographic tiebreak. -/
theorem claim_C1_amended (l : List Task) :
    List.Perm (sort_tasks l) l ∧
    (sort_tasks l).Pairwise (fun a b => taskLE a b = true) ∧
    (∀ k : Bool × Nat × String,
      (sort_tasks l).filter (fun t => decide (sortKey t = k)) =
        l.filter (fun t => decide (sortKey t = k))) ∧
    (sort_tasks l).Pairwise (fun a b => a.done = true → b.done = true) ∧
    (sort_tasks l).Pairwise (fun a b => a.done = b.done → dueClass a ≤ dueClass b) ∧
    (sort_tasks l).Pairwise (fun a b => a.done = b.done → dueRank a ≤ dueRank b) ∧
    (sort_tasks l).Pairwise (fun a b => a.done = b.done → dueRank a = dueRank b →
      pyStrLE (dueStr a) (dueStr b) = true) := by
  have hpw : (sort_tasks l).Pairwise (fun a b => taskLE a b = true) :=
    List.sorted_mergeSort taskLE_trans taskLE_total l
  refine ⟨List.mergeSort_perm l taskLE, hpw, sort_tasks_stable l, ?_, ?_, ?_, ?_⟩
  · exact hpw.imp (fun h => taskLE_done h)
  · exact hpw.imp (fun h hd => dueClass_mono (taskLE_rank h hd))
  · exact hpw.imp (fun h hd => taskLE_rank h hd)
  · exact hpw.imp (fun h hd hr => taskLE_str h hd hr)

/-- C2: `parse_due_key` tries the three clock formats in order,
case-insensitively, and returns the minute of day for the first match:
`"14:30"` and `"2:30PM"` (and `"2:30pm"`) rank 870, `"2PM"` ranks 840, an
absent or empty due ranks 999999, and an unparseable string such as
`"whenever"` ranks 999998. -/
theorem claim_C2 :
    parse_due_key (some "14:30") = (870, "14:30") ∧
    parse_due_key (some "2:30PM") = (870, "2:30PM") ∧
    parse_due_key (some "2:30pm") = (870, "2:30pm") ∧
    parse_due_key (some "2PM") = (840, "2PM") ∧
    parse_due_key none = (999999, "") ∧
    parse_due_key (some "") = (999999, "") ∧
    parse_due_key (some "whenever") = (999998, "whenever") ∧
    (∀ s m, s ≠ "" → firstClockMatch (pyUpper (pyStrip s)).data = some m →
      parse_due_key (some s) = (m, pyStrip s)) ∧
    (∀ s, s ≠ "" → firstClockMatch (pyUpper (pyStrip s)).data = none →
      parse_due_key (some s) = (999998, pyStrip s)) := by
  refine ⟨by decide, by decide, by decide, by decide, rfl, by decide, by decide,
    ?_, ?_⟩
  · intro s m hs hm
    unfold parse_due_key
    simp [hs, hm]
  · intro s hs hm
    unfold parse_due_key
    simp [hs, hm]

/-- Witness for C2: the general first-match clause applied to the concrete
input `"3:07"`. -/
theorem claim_C2_witness : parse_due_key (some "3:07") = (187, "3:07") := by
  have h := claim_C2.2.2.2.2.2.2.2.1 "3:07" 187 (by decide) (by decide)
  have hstrip : pyStrip "3:07" = "3:07" := by decide
  rwa [hstrip] at h

/-- C9, counterexample.  The claim says an id removed from the store is
never reused.  `next_id` is `1 + max(current ids)`, not a persisted
counter: after removing the task with id 2 (the maximum), the next add
assigns id 2 again. -/
theorem claim_C9_counterexample :
    (2 : Int) ∈ taskIds [(⟨1, "a", none, false, "t"⟩ : Task),
      ⟨2, "b", none, false, "t"⟩] ∧
    removeTasks 2 [(⟨1, "a", none, false, "t"⟩ : Task),
      ⟨2, "b", none, false, "t"⟩] = [⟨1, "a", none, false, "t"⟩] ∧
    taskIds (addTask (removeTasks 2 [(⟨1, "a", none, false, "t"⟩ : Task),
      ⟨2, "b", none, false, "t"⟩]) "c" none "t2") = [1, 2] :=
  ⟨by decide, by decide, by decide⟩

/-- C9, amended: every operation (add, done, undone, remove) preserves
pairwise-distinct ids, and the id assigned by add (`next_id`) is fresh -
strictly greater than every current id, hence not currently in the store -
but removed ids *can* be reassigned later, since `next_id` is computed
from the current maximum only (see the counterexample). -/
theorem claim_C9_amended (ts : List Task) (hnd : (taskIds ts).Nodup) :
    (∀ text due now, (taskIds (addTask ts text due now)).Nodup) ∧
    (∀ idv val ts', markFirst idv val ts = some ts' →
      taskIds ts' = taskIds ts ∧ (taskIds ts').Nodup) ∧
    (∀ idv, (taskIds (removeTasks idv ts)).Nodup) ∧
    next_id ts ∉ taskIds ts := by
  refine ⟨?_, ?_, ?_, next_id_not_mem ts⟩
  · intro text due now
    have he : taskIds (addTask ts text due now) = taskIds ts ++ [next_id ts] := by
      simp [addTask, taskIds]
    rw [he]
    refine List.Nodup.append hnd (List.nodup_singleton _) ?_
    intro a ha hb
    rw [List.mem_singleton.mp hb] at ha
    exact next_id_not_mem ts ha
  · intro idv val ts' h
    have he := markFirst_ids h
    exact ⟨he, he ▸ hnd⟩
  · intro idv
    have hsub : List.Sublist (taskIds (removeTasks idv ts)) (taskIds ts) :=
      (List.filter_sublist ts).map Task.id
    exact hsub.nodup hnd

/-- Witness for C9: the amended theorem applied to the concrete one-task
store `[{id := 1}]`. -/
theorem claim_C9_witness :
    (taskIds (addTask [(⟨1, "a", none, false, "t"⟩ : Task)] "b" none "t2")).Nodup ∧
    next_id [(⟨1, "a", none, false, "t"⟩ : Task)] ∉
      taskIds [(⟨1, "a", none, false, "t"⟩ : Task)] := by
  have h := claim_C9_amended [⟨1, "a", none, false, "t"⟩] (by decide)
  exact ⟨h.1 "b" none "t2", h.2.2.2⟩

/-! ## Character, hex and whitespace lemmas for the JSON round trip -/

theorem char_toNat_valid (c : Char) :
    c.toNat < 0xD800 ∨ (0xDFFF < c.toNat ∧ c.toNat < 0x110000) := by
  rcases c.valid with h | ⟨h1, h2⟩
  · left
    exact h
  · right
    exact ⟨h1, h2⟩

theorem hexVal_hexDigit {d : Nat} (h : d < 16) : hexVal (hexDigit d) = some d := by
  interval_cases d <;> rfl

theorem hex4_toHex4 {n : Nat} (h : n < 65536) :
    hex4 (hexDigit (n / 4096 % 16)) (hexDigit (n / 256 % 16))
      (hexDigit (n / 16 % 16)) (hexDigit (n % 16)) = some n := by
  unfold hex4
  rw [hexVal_hexDigit (Nat.mod_lt _ (by omega)),
      hexVal_hexDigit (Nat.mod_lt _ (by omega)),
      hexVal_hexDigit (Nat.mod_lt _ (by omega)),
      hexVal_hexDigit (Nat.mod_lt _ (by omega))]
  exact congrArg some (by omega)

theorem mkScalar_toNat (c : Char) : mkScalar c.toNat = c := by
  unfold mkScalar
  rcases char_toNat_valid c with hv | ⟨hv1, hv2⟩
  · rw [if_neg (by omega)]
    exact Char.ofNat_toNat c
  · rw [if_neg (by omega)]
    exact Char.ofNat_toNat c

theorem skipWS_not {c : Char} {rest : List Char} (h : jsonWS c = false) :
    skipWS (c :: rest) = c :: rest := by
  simp [skipWS, List.dropWhile_cons, h]

theorem skipWS_ws {c : Char} {rest : List Char} (h : jsonWS c = true) :
    skipWS (c :: rest) = skipWS rest := by
  simp [skipWS, List.dropWhile_cons, h]

theorem skipWS_replicate (n : Nat) (rest : List Char) :
    skipWS (List.replicate n ' ' ++ rest) = skipWS rest := by
  induction n with
  | zero => rfl
  | succ k ih => simpa [List.replicate_succ, skipWS_ws] using ih

theorem skipWS_indent (lvl : Nat) (rest : List Char) :
    skipWS ('\n' :: (indent lvl ++ rest)) = skipWS rest := by
  rw [skipWS_ws (by rfl)]
  exact skipWS_replicate _ _

/-! ## String-literal round trip -/

theorem decodeEsc_u {n : Nat} (h1 : n < 65536)
    (h2 : ¬(0xD800 ≤ n ∧ n ≤ 0xDBFF)) (tail : List Char) :
    decodeEsc ('u' :: (toHex4 n ++ tail)) = some (mkScalar n, tail) := by
  simp only [toHex4, List.cons_append, List.nil_append]
  simp [decodeEsc, hex4_toHex4 h1, h2]

theorem decodeEsc_pair {hi lo : Nat} (hh : 0xD800 ≤ hi ∧ hi ≤ 0xDBFF)
    (hl : 0xDC00 ≤ lo ∧ lo ≤ 0xDFFF) (tail : List Char) :
    decodeEsc ('u' :: (toHex4 hi ++ '\\' :: 'u' :: (toHex4 lo ++ tail))) =
      some (mkScalar (0x10000 + (hi - 0xD800) * 1024 + (lo - 0xDC00)), tail) := by
  simp only [toHex4, List.cons_append, List.nil_append]
  simp [decodeEsc, hex4_toHex4 (show hi < 65536 by omega),
    hex4_toHex4 (show lo < 65536 by omega), hh, hl]

theorem decodeEsc_q (t : List Char) : decodeEsc ('"' :: t) = some ('"', t) := rfl

theorem decodeEsc_bs (t : List Char) : decodeEsc ('\\' :: t) = some ('\\', t) := rfl

theorem decodeEsc_b (t : List Char) : decodeEsc ('b' :: t) = some (Char.ofNat 8, t) := rfl

theorem decodeEsc_f (t : List Char) : decodeEsc ('f' :: t) = some (Char.ofNat 12, t) := rfl

theorem decodeEsc_n (t : List Char) : decodeEsc ('n' :: t) = some ('\n', t) := rfl

theorem decodeEsc_r (t : List Char) : decodeEsc ('r' :: t) = some ('\r', t) := rfl

theorem decodeEsc_t (t : List Char) : decodeEsc ('t' :: t) = some ('\t', t) := rfl

theorem scanString_quote (f : Nat) (r : List Char) :
    scanString (f + 1) ('"' :: r) = some ([], r) := by
  simp [scanString]

theorem scanString_esc_step {f : Nat} {l r2 cs r5 : List Char} {ch : Char}
    (hd : decodeEsc l = some (ch, r2)) (hs : scanString f r2 = some (cs, r5)) :
    scanString (f + 1) ('\\' :: l) = some (ch :: cs, r5) := by
  simp [scanString, hd, hs]

theorem scanString_plain_step {f : Nat} {c : Char} {l cs r5 : List Char}
    (h1 : ¬ c = '"') (h2 : ¬ c = '\\') (h3 : ¬ c.toNat < 32)
    (hs : scanString f l = some (cs, r5)) :
    scanString (f + 1) (c :: l) = some (c :: cs, r5) := by
  simp [scanString, h1, h2, h3, hs]

theorem scanString_escList (cs : List Char) : ∀ (fuel : Nat) (rest : List Char),
    cs.length + 1 ≤ fuel →
    scanString fuel (escList cs ++ '"' :: rest) = some (cs, rest) := by
  induction cs with
  | nil =>
    intro fuel rest hf
    cases fuel with
    | zero => omega
    | succ f => exact scanString_quote f rest
  | cons c cs ih =>
    intro fuel rest hf
    cases fuel with
    | zero => omega
    | succ f =>
    have hf2 : cs.length + 1 ≤ f := by
      simp only [List.length_cons] at hf
      omega
    have ihf := ih f rest hf2
    by_cases h1 : c = '"'
    · subst h1
      have hl : escList ('"' :: cs) ++ '"' :: rest =
          '\\' :: ('"' :: (escList cs ++ '"' :: rest)) := by
        simp [escList, escChar]
      rw [hl]
      exact scanString_esc_step (decodeEsc_q _) ihf
    by_cases h2 : c = '\\'
    · subst h2
      have hl : escList ('\\' :: cs) ++ '"' :: rest =
          '\\' :: ('\\' :: (escList cs ++ '"' :: rest)) := by
        simp [escList, escChar]
      rw [hl]
      exact scanString_esc_step (decodeEsc_bs _) ihf
    by_cases h3 : c.toNat = 8
    · have hc : Char.ofNat (8 : Nat) = c := by rw [← h3]; exact Char.ofNat_toNat c
      have hl : escList (c :: cs) ++ '"' :: rest =
          '\\' :: ('b' :: (escList cs ++ '"' :: rest)) := by
        simp [escList, escChar, h1, h2, h3]
      rw [hl]
      exact scanString_esc_step (hc ▸ decodeEsc_b _) ihf
    by_cases h4 : c.toNat = 12
    · have hc : Char.ofNat (12 : Nat) = c := by rw [← h4]; exact Char.ofNat_toNat c
      have hl : escList (c :: cs) ++ '"' :: rest =
          '\\' :: ('f' :: (escList cs ++ '"' :: rest)) := by
        simp [escList, escChar, h1, h2, h3, h4]
      rw [hl]
      exact scanString_esc_step (hc ▸ decodeEsc_f _) ihf
    by_cases h5 : c.toNat = 10
    · have hc : Char.ofNat (10 : Nat) = c := by rw [← h5]; exact Char.ofNat_toNat c
      have hl : escList (c :: cs) ++ '"' :: rest =
          '\\' :: ('n' :: (escList cs ++ '"' :: rest)) := by
        simp [escList, escChar, h1, h2, h3, h4, h5]
      rw [hl]
      have hd : decodeEsc ('n' :: (escList cs ++ '"' :: rest)) =
          some (c, escList cs ++ '"' :: rest) := by
        rw [decodeEsc_n]
        exact congrArg some (congrArg (fun x => (x, _)) hc)
      exact scanString_esc_step hd ihf
    by_cases h6 : c.toNat = 13
    · have hc : Char.ofNat (13 : Nat) = c := by rw [← h6]; exact Char.ofNat_toNat c
      have hl : escList (c :: cs) ++ '"' :: rest =
          '\\' :: ('r' :: (escList cs ++ '"' :: rest)) := by
        simp [escList, escChar, h1, h2, h3, h4, h5, h6]
      rw [hl]
      have hd : decodeEsc ('r' :: (escList cs ++ '"' :: rest)) =
          some (c, escList cs ++ '"' :: rest) := by
        rw [decodeEsc_r]
        exact congrArg some (congrArg (fun x => (x, _)) hc)
      exact scanString_esc_step hd ihf
    by_cases h7 : c.toNat = 9
    · have hc : Char.ofNat (9 : Nat) = c := by rw [← h7]; exact Char.ofNat_toNat c
      have hl : escList (c :: cs) ++ '"' :: rest =
          '\\' :: ('t' :: (escList cs ++ '"' :: rest)) := by
        simp [escList, escChar, h1, h2, h3, h4, h5, h6, h7]
      rw [hl]
      have hd : decodeEsc ('t' :: (escList cs ++ '"' :: rest)) =
          some (c, escList cs ++ '"' :: rest) := by
        rw [decodeEsc_t]
        exact congrArg some (congrArg (fun x => (x, _)) hc)
      exact scanString_esc_step hd ihf
    by_cases h8 : 32 ≤ c.toNat ∧ c.toNat ≤ 126
    · have hl : escList (c :: cs) ++ '"' :: rest =
          c :: (escList cs ++ '"' :: rest) := by
        simp [escList, escChar, h1, h2, h3, h4, h5, h6, h7, h8]
      rw [hl]
      exact scanString_plain_step h1 h2 (by omega) ihf
    by_cases h9 : c.toNat < 0x10000
    · have hl : escList (c :: cs) ++ '"' :: rest =
          '\\' :: ('u' :: (toHex4 c.toNat ++ (escList cs ++ '"' :: rest))) := by
        simp [escList, escChar, h1, h2, h3, h4, h5, h6, h7, h8, h9]
      rw [hl]
      have hd : decodeEsc ('u' :: (toHex4 c.toNat ++ (escList cs ++ '"' :: rest))) =
          some (c, escList cs ++ '"' :: rest) := by
        rw [decodeEsc_u (by omega)
          (by rcases char_toNat_valid c with hv | hv <;> omega), mkScalar_toNat]
      exact scanString_esc_step hd ihf
    · rcases char_toNat_valid c with hv | ⟨hv1, hv2⟩
      · omega
      have hdiv : (c.toNat - 0x10000) / 1024 < 1024 := by omega
      have hmod := Nat.mod_lt (c.toNat - 0x10000) (show 0 < 1024 by omega)
      have hl : escList (c :: cs) ++ '"' :: rest =
          '\\' :: ('u' :: (toHex4 (0xD800 + (c.toNat - 0x10000) / 1024) ++
            ('\\' :: 'u' :: (toHex4 (0xDC00 + (c.toNat - 0x10000) % 1024) ++
              (escList cs ++ '"' :: rest))))) := by
        simp [escList, escChar, h1, h2, h3, h4, h5, h6, h7, h8, h9]
      rw [hl]
      have hd : decodeEsc ('u' :: (toHex4 (0xD800 + (c.toNat - 0x10000) / 1024) ++
          ('\\' :: 'u' :: (toHex4 (0xDC00 + (c.toNat - 0x10000) % 1024) ++
            (escList cs ++ '"' :: rest))))) =
          some (c, escList cs ++ '"' :: rest) := by
        rw [decodeEsc_pair (by omega) (by omega)]
        have hcomb : 0x10000 +
            (0xD800 + (c.toNat - 0x10000) / 1024 - 0xD800) * 1024 +
            (0xDC00 + (c.toNat - 0x10000) % 1024 - 0xDC00) = c.toNat := by
          omega
        rw [hcomb, mkScalar_toNat]
      exact scanString_esc_step hd ihf

/-! ## Number round trip -/

theorem isDig_hexDigit {d : Nat} (h : d < 10) : isDig (hexDigit d) = true := by
  interval_cases d <;> rfl

theorem digitVal_hexDigit {d : Nat} (h : d < 10) : digitVal (hexDigit d) = d := by
  interval_cases d <;> rfl

theorem spanDigits_append : ∀ {ds rest : List Char},
    (∀ c ∈ ds, isDig c = true) →
    (∀ c r2, rest = c :: r2 → isDig c = false) →
    spanDigits (ds ++ rest) = (ds, rest) := by
  intro ds
  induction ds with
  | nil =>
    intro rest _ hr
    cases rest with
    | nil => rfl
    | cons c r => simp [spanDigits, hr c r rfl]
  | cons d ds ih =>
    intro rest hds hr
    have hd : isDig d = true := hds d (List.mem_cons_self d ds)
    have ih2 := ih (fun c hc => hds c (List.mem_cons_of_mem d hc)) hr
    simp [spanDigits, hd, ih2]

theorem natDigitsF_all_dig : ∀ (fuel n : Nat), n < fuel →
    ∀ c ∈ natDigitsF fuel n, isDig c = true := by
  intro fuel
  induction fuel with
  | zero => intro n h; omega
  | succ f ih =>
    intro n hn c hc
    unfold natDigitsF at hc
    split_ifs at hc with h10
    · rcases List.mem_singleton.mp hc with rfl
      exact isDig_hexDigit h10
    · rcases List.mem_append.mp hc with hc1 | hc1
      · exact ih (n / 10) (by omega) c hc1
      · rcases List.mem_singleton.mp hc1 with rfl
        exact isDig_hexDigit (Nat.mod_lt _ (by omega))

theorem digitsVal_append_one (xs : List Char) (d : Char) :
    digitsVal (xs ++ [d]) = 10 * digitsVal xs + digitVal d := by
  unfold digitsVal
  rw [List.foldl_append]
  simp [Nat.mul_comm]

theorem natDigitsF_val : ∀ (fuel n : Nat), n < fuel →
    digitsVal (natDigitsF fuel n) = n := by
  intro fuel
  induction fuel with
  | zero => intro n h; omega
  | succ f ih =>
    intro n hn
    unfold natDigitsF
    split_ifs with h10
    · show digitsVal [hexDigit n] = n
      unfold digitsVal
      simp [digitVal_hexDigit h10]
    · rw [digitsVal_append_one, ih (n / 10) (by omega),
        digitVal_hexDigit (Nat.mod_lt _ (by omega))]
      omega

theorem natDigitsF_head : ∀ (fuel n : Nat), n < fuel → 0 < n →
    ∃ c ds, natDigitsF fuel n = c :: ds ∧ 49 ≤ c.toNat ∧ c.toNat ≤ 57 ∧
      (∀ x ∈ ds, isDig x = true) := by
  intro fuel
  induction fuel with
  | zero => intro n h; omega
  | succ f ih =>
    intro n hn hpos
    unfold natDigitsF
    split_ifs with h10
    · refine ⟨hexDigit n, [], rfl, ?_, ?_, by simp⟩
      · interval_cases n <;> simp [hexDigit]
      · interval_cases n <;> simp [hexDigit]
    · obtain ⟨c, ds, he, hb1, hb2, hds⟩ :=
        ih (n / 10) (by omega) (by omega)
      refine ⟨c, ds ++ [hexDigit (n % 10)], by rw [he]; rfl, hb1, hb2, ?_⟩
      intro x hx
      rcases List.mem_append.mp hx with hx1 | hx1
      · exact hds x hx1
      · rcases List.mem_singleton.mp hx1 with rfl
        exact isDig_hexDigit (Nat.mod_lt _ (by omega))

theorem scanFrac_no {s : List Char} (h : ∀ c r2, s = c :: r2 → c ≠ '.') :
    scanFrac s = ([], s) := by
  cases s with
  | nil => rfl
  | cons c r => simp [scanFrac, h c r rfl]

theorem scanExp_no {s : List Char}
    (h : ∀ c r2, s = c :: r2 → c ≠ 'e' ∧ c ≠ 'E') :
    scanExp s = ([], s) := by
  cases s with
  | nil => rfl
  | cons c r => simp [scanExp, (h c r rfl).1, (h c r rfl).2]

theorem numSafe_frac {rest : List Char} (h : numSafe rest) :
    ∀ c r2, rest = c :: r2 → c ≠ '.' := by
  intro c r2 he
  rw [he] at h
  exact h.2.1

theorem numSafe_exp {rest : List Char} (h : numSafe rest) :
    ∀ c r2, rest = c :: r2 → c ≠ 'e' ∧ c ≠ 'E' := by
  intro c r2 he
  rw [he] at h
  exact ⟨h.2.2.1, h.2.2.2⟩

theorem numSafe_dig {rest : List Char} (h : numSafe rest) :
    ∀ c r2, rest = c :: r2 → isDig c = false := by
  intro c r2 he
  rw [he] at h
  exact h.1

theorem scanNumTail_none {neg : Bool} {ip rest : List Char} (h : numSafe rest) :
    scanNumTail neg ip rest =
      some (Json.int (if neg then -(digitsVal ip : Int) else (digitsVal ip : Int)),
        rest) := by
  have h1 := scanFrac_no (numSafe_frac h)
  have h2 := scanExp_no (numSafe_exp h)
  simp [scanNumTail, h1, h2]

theorem scanNumAfterSign_digits {n : Nat} {neg : Bool} {rest : List Char}
    (hr : numSafe rest) :
    scanNumAfterSign neg (natDigits n ++ rest) =
      some (Json.int (if neg then -(n : Int) else (n : Int)), rest) := by
  by_cases h0 : n = 0
  · subst h0
    show scanNumAfterSign neg ('0' :: rest) = _
    simp only [scanNumAfterSign]
    rw [if_pos trivial, scanNumTail_none hr]
    rfl
  · obtain ⟨c, ds, he, hb1, hb2, hds⟩ :=
      natDigitsF_head (n + 1) n (by omega) (by omega)
    have hval : digitsVal (c :: ds) = n := by
      rw [← he]
      exact natDigitsF_val (n + 1) n (by omega)
    have hspan : spanDigits (ds ++ rest) = (ds, rest) :=
      spanDigits_append hds (numSafe_dig hr)
    have he2 : natDigits n ++ rest = c :: (ds ++ rest) := by
      unfold natDigits
      rw [he]
      rfl
    rw [he2]
    simp only [scanNumAfterSign]
    rw [if_neg (by intro h; subst h; exact absurd hb1 (by decide)),
      if_pos ⟨hb1, hb2⟩, hspan]
    show scanNumTail neg (c :: ds) rest = _
    rw [scanNumTail_none hr, hval]

theorem scanNumber_intChars (i : Int) (rest : List Char) (hr : numSafe rest) :
    scanNumber (intChars i ++ rest) = some (Json.int i, rest) := by
  by_cases hneg : i < 0
  · have he : intChars i ++ rest = '-' :: (natDigits i.natAbs ++ rest) := by
      unfold intChars
      rw [if_pos hneg]
      rfl
    rw [he]
    simp only [scanNumber]
    rw [if_pos trivial, scanNumAfterSign_digits hr]
    have : -(i.natAbs : Int) = i := by omega
    rw [if_pos rfl, this]
  · have he : intChars i ++ rest = natDigits i.toNat ++ rest := by
      unfold intChars
      rw [if_neg hneg]
    have hcons : ∃ c ds, natDigits i.toNat = c :: ds ∧ isDig c = true := by
      by_cases h0 : i.toNat = 0
      · exact ⟨'0', [], by rw [h0]; rfl, rfl⟩
      · obtain ⟨c, ds, he2, hb1, hb2, -⟩ :=
          natDigitsF_head (i.toNat + 1) i.toNat (by omega) (by omega)
        refine ⟨c, ds, he2, ?_⟩
        simp only [isDig, decide_eq_true_eq]
        omega
    obtain ⟨c, ds, he2, hdig⟩ := hcons
    rw [he, he2]
    show scanNumber (c :: (ds ++ rest)) = _
    simp only [scanNumber]
    rw [if_neg (by intro h; subst h; exact absurd hdig (by decide))]
    rw [show c :: (ds ++ rest) = (c :: ds) ++ rest from rfl, ← he2,
      scanNumAfterSign_digits hr]
    have : (i.toNat : Int) = i := by omega
    rw [if_neg (by simp), this]

/-! ## Parser step lemmas -/

theorem afterLit_self : ∀ (lit rest : List Char),
    afterLit lit (lit ++ rest) = some rest := by
  intro lit
  induction lit with
  | nil => intro rest; rfl
  | cons c p ih => intro rest; simp [afterLit, ih]

theorem afterLit_ne {a d : Char} {p s : List Char} (h : ¬ a = d) :
    afterLit (a :: p) (d :: s) = none := by
  simp [afterLit, h]

theorem parseValue_null (f : Nat) (rest : List Char) :
    parseValue (f + 1) ('n' :: 'u' :: 'l' :: 'l' :: rest) =
      some (Json.null, rest) := by
  simp [parseValue, afterLit]

theorem parseValue_true (f : Nat) (rest : List Char) :
    parseValue (f + 1) ('t' :: 'r' :: 'u' :: 'e' :: rest) =
      some (Json.bool true, rest) := by
  simp [parseValue, afterLit]

theorem parseValue_false (f : Nat) (rest : List Char) :
    parseValue (f + 1) ('f' :: 'a' :: 'l' :: 's' :: 'e' :: rest) =
      some (Json.bool false, rest) := by
  simp [parseValue, afterLit]

theorem parseValue_str {f : Nat} {rest cs r : List Char}
    (h : scanString (rest.length + 1) rest = some (cs, r)) :
    parseValue (f + 1) ('"' :: rest) = some (Json.str (String.mk cs), r) := by
  simp [parseValue, h]

theorem parseValue_num {f : Nat} {c : Char} {r rest2 : List Char} {v : Json}
    (hc : isDig c = true ∨ c = '-')
    (h : scanNumber (c :: r) = some (v, rest2)) :
    parseValue (f + 1) (c :: r) = some (v, rest2) := by
  have hcn : c.toNat = 45 ∨ (48 ≤ c.toNat ∧ c.toNat ≤ 57) := by
    rcases hc with hd | hd
    · right
      simpa [isDig] using hd
    · left
      rw [hd]
      rfl
  have hne : ∀ d : Char, d.toNat ≠ c.toNat → ¬ c = d := by
    intro d hd he
    exact hd (by rw [he])
  have hq : ¬ c = '"' := hne _ (by
    have hd : ('"' : Char).toNat = 34 := rfl
    omega)
  have hb : ¬ c = '{' := hne _ (by
    have hd : ('{' : Char).toNat = 123 := rfl
    omega)
  have hk : ¬ c = '[' := hne _ (by
    have hd : ('[' : Char).toNat = 91 := rfl
    omega)
  have hn : ¬ ('n' : Char) = c := fun he => by
    rw [← he] at hcn
    revert hcn
    decide
  have ht : ¬ ('t' : Char) = c := fun he => by
    rw [← he] at hcn
    revert hcn
    decide
  have hf : ¬ ('f' : Char) = c := fun he => by
    rw [← he] at hcn
    revert hcn
    decide
  simp [parseValue, hq, hb, hk, afterLit_ne hn, afterLit_ne ht, afterLit_ne hf, h]

theorem parseValue_arr_nil {f : Nat} {rest r2 : List Char}
    (h : skipWS rest = ']' :: r2) :
    parseValue (f + 1) ('[' :: rest) = some (Json.arr [], r2) := by
  simp [parseValue, h]

theorem parseValue_arr_cons {f : Nat} {rest r1 : List Char} {c : Char}
    {vs : List Json} {r2 : List Char}
    (h : skipWS rest = c :: r1) (hc : ¬ c = ']')
    (hp : parseItems f (c :: r1) = some (vs, r2)) :
    parseValue (f + 1) ('[' :: rest) = some (Json.arr vs, r2) := by
  have e1 : parseValue (f + 1) ('[' :: rest) =
      (match skipWS rest with
       | ']' :: r2 => some (Json.arr [], r2)
       | r1 =>
         match parseItems f r1 with
         | some (vs, r2) => some (Json.arr vs, r2)
         | none => none) := by
    simp [parseValue]
  rw [e1, h]
  split
  · rename_i heq
    cases heq
    exact absurd rfl hc
  · rw [hp]

theorem parseValue_obj_nil {f : Nat} {rest r2 : List Char}
    (h : skipWS rest = '}' :: r2) :
    parseValue (f + 1) ('{' :: rest) = some (Json.obj [], r2) := by
  simp [parseValue, h]

theorem parseValue_obj_cons {f : Nat} {rest r1 : List Char} {c : Char}
    {kvs : List (String × Json)} {r2 : List Char}
    (h : skipWS rest = c :: r1) (hc : ¬ c = '}')
    (hp : parseMembers f (c :: r1) = some (kvs, r2)) :
    parseValue (f + 1) ('{' :: rest) = some (Json.obj kvs, r2) := by
  have e1 : parseValue (f + 1) ('{' :: rest) =
      (match skipWS rest with
       | '}' :: r2 => some (Json.obj [], r2)
       | r1 =>
         match parseMembers f r1 with
         | some (kvs, r2) => some (Json.obj kvs, r2)
         | none => none) := by
    simp [parseValue]
  rw [e1, h]
  split
  · rename_i heq
    cases heq
    exact absurd rfl hc
  · rw [hp]

theorem parseItems_last {f : Nat} {s r r2 : List Char} {v : Json}
    (hv : parseValue f s = some (v, r)) (h : skipWS r = ']' :: r2) :
    parseItems (f + 1) s = some ([v], r2) := by
  simp [parseItems, hv, h]

theorem parseItems_cons {f : Nat} {s r r2 r3 : List Char} {v : Json}
    {vs : List Json}
    (hv : parseValue f s = some (v, r)) (h : skipWS r = ',' :: r2)
    (hp : parseItems f (skipWS r2) = some (vs, r3)) :
    parseItems (f + 1) s = some (v :: vs, r3) := by
  simp [parseItems, hv, h, hp]

theorem parseMembers_last {f : Nat} {rest kr r2 r3 r4 kcs : List Char} {v : Json}
    (hk : scanString (rest.length + 1) rest = some (kcs, kr))
    (h1 : skipWS kr = ':' :: r2)
    (hv : parseValue f (skipWS r2) = some (v, r3))
    (h2 : skipWS r3 = '}' :: r4) :
    parseMembers (f + 1) ('"' :: rest) = some ([(String.mk kcs, v)], r4) := by
  simp [parseMembers, hk, h1, hv, h2]

theorem parseMembers_cons {f : Nat} {rest kr r2 r3 r4 r5 kcs : List Char}
    {v : Json} {kvs : List (String × Json)} {r6 : List Char}
    (hk : scanString (rest.length + 1) rest = some (kcs, kr))
    (h1 : skipWS kr = ':' :: r2)
    (hv : parseValue f (skipWS r2) = some (v, r3))
    (h2 : skipWS r3 = ',' :: r4)
    (h3 : skipWS r4 = '"' :: r5)
    (hp : parseMembers f ('"' :: r5) = some (kvs, r6)) :
    parseMembers (f + 1) ('"' :: rest) =
      some (consMember (String.mk kcs) v kvs, r6) := by
  simp [parseMembers, hk, h1, hv, h2, h3, hp]

theorem objGet_eq_none {k : String} : ∀ {kvs : List (String × Json)},
    keyMem k kvs = false → objGet kvs k = none := by
  intro kvs
  induction kvs with
  | nil => intro _; rfl
  | cons p r ih =>
    intro h
    obtain ⟨k2, v⟩ := p
    simp only [keyMem, Bool.or_eq_false_iff] at h
    have hne : ¬ k2 = k := fun he => by
      rw [he] at h
      simp at h
    simp [objGet, hne, ih h.2]

theorem consMember_fresh {k : String} {v : Json} {kvs : List (String × Json)}
    (h : keyMem k kvs = false) : consMember k v kvs = (k, v) :: kvs := by
  unfold consMember
  rw [objGet_eq_none h]

theorem intChars_head (i : Int) :
    ∃ c r, intChars i = c :: r ∧ (isDig c = true ∨ c = '-') := by
  by_cases h : i < 0
  · refine ⟨'-', natDigits i.natAbs, ?_, Or.inr rfl⟩
    unfold intChars
    rw [if_pos h]
  · by_cases h0 : i.toNat = 0
    · refine ⟨'0', [], ?_, Or.inl rfl⟩
      unfold intChars
      rw [if_neg h, h0]
      rfl
    · obtain ⟨c, ds, he, hb1, hb2, -⟩ :=
        natDigitsF_head (i.toNat + 1) i.toNat (by omega) (by omega)
      refine ⟨c, ds, ?_, Or.inl ?_⟩
      · unfold intChars
        rw [if_neg h]
        exact he
      · simp only [isDig, decide_eq_true_eq]
        omega

theorem parseValue_int {f : Nat} {i : Int} {rest : List Char} (hr : numSafe rest) :
    parseValue (f + 1) (intChars i ++ rest) = some (Json.int i, rest) := by
  obtain ⟨c, r, he, hc⟩ := intChars_head i
  have hs : scanNumber (c :: (r ++ rest)) = some (Json.int i, rest) := by
    rw [show c :: (r ++ rest) = (c :: r) ++ rest from rfl, ← he]
    exact scanNumber_intChars i rest hr
  rw [he]
  show parseValue (f + 1) (c :: (r ++ rest)) = _
  exact parseValue_num hc hs

theorem numSafe_comma (x : List Char) : numSafe (',' :: x) :=
  ⟨by decide, by decide, by decide, by decide⟩

theorem numSafe_newline (x : List Char) : numSafe ('\n' :: x) :=
  ⟨by decide, by decide, by decide, by decide⟩

theorem escList_length_ge (cs : List Char) : cs.length ≤ (escList cs).length := by
  induction cs with
  | nil => simp [escList]
  | cons c cs ih =>
    have hc : 1 ≤ (escChar c).length := by
      unfold escChar
      split_ifs <;> simp
    simp only [escList, List.length_append, List.length_cons]
    omega

theorem scanString_key {cs rest : List Char} :
    scanString ((escList cs ++ '"' :: rest).length + 1) (escList cs ++ '"' :: rest) =
      some (cs, rest) := by
  apply scanString_escList
  have := escList_length_ge cs
  simp only [List.length_append, List.length_cons]
  omega

/-! ## Fuel bounds and head characters of printed values -/

theorem fuelJ_pos (j : Json) : 1 ≤ fuelJ j := by
  cases j <;> simp [fuelJ]

mutual

theorem fuelJ_le_printJ (j : Json) (hwf : wfJson j = true) (lvl : Nat) :
    fuelJ j ≤ (printJ lvl j).length := by
  cases j with
  | null => simp [fuelJ, printJ, printAtom]
  | bool b => cases b <;> simp [fuelJ, printJ, printAtom]
  | int i =>
    obtain ⟨c, r, he, -⟩ := intChars_head i
    simp [fuelJ, printJ, printAtom, he]
  | fnum neg ip fp ep => simp [wfJson] at hwf
  | nan => simp [wfJson] at hwf
  | inf b => simp [wfJson] at hwf
  | str s => simp [fuelJ, printJ, printAtom, escString]
  | arr xs =>
    cases xs with
    | nil => simp [fuelJ, fuelItems, printJ]
    | cons x xs2 =>
      simp only [wfJson, wfItems, Bool.and_eq_true] at hwf
      have h1 := fuelJ_le_printJ x hwf.1 (lvl + 1)
      have h2 := fuelItems_le_printArrTail xs2 hwf.2 (lvl + 1)
      simp only [fuelJ, fuelItems, printJ, List.length_cons, List.length_append,
        indent, List.length_replicate]
      omega
  | obj kvs =>
    cases kvs with
    | nil => simp [fuelJ, fuelMembers, printJ]
    | cons p kvs2 =>
      obtain ⟨k, v⟩ := p
      simp only [wfJson, wfMembers, Bool.and_eq_true] at hwf
      have h1 := fuelJ_le_printJ v hwf.2.1 (lvl + 1)
      have h2 := fuelMembers_le_printObjTail kvs2 hwf.2.2 (lvl + 1)
      simp only [fuelJ, fuelMembers, printJ, List.length_cons, List.length_append,
        indent, List.length_replicate, escString]
      omega

theorem fuelItems_le_printArrTail (xs : List Json) (hwf : wfItems xs = true)
    (lvl : Nat) : fuelItems xs ≤ (printArrTail lvl xs).length := by
  cases xs with
  | nil => simp [fuelItems, printArrTail]
  | cons x xs2 =>
    simp only [wfItems, Bool.and_eq_true] at hwf
    have h1 := fuelJ_le_printJ x hwf.1 lvl
    have h2 := fuelItems_le_printArrTail xs2 hwf.2 lvl
    simp only [fuelItems, printArrTail, List.length_cons, List.length_append,
      indent, List.length_replicate]
    omega

theorem fuelMembers_le_printObjTail (kvs : List (String × Json))
    (hwf : wfMembers kvs = true) (lvl : Nat) :
    fuelMembers kvs ≤ (printObjTail lvl kvs).length := by
  cases kvs with
  | nil => simp [fuelMembers, printObjTail]
  | cons p kvs2 =>
    obtain ⟨k, v⟩ := p
    simp only [wfMembers, Bool.and_eq_true] at hwf
    have h1 := fuelJ_le_printJ v hwf.1 lvl
    have h2 := fuelMembers_le_printObjTail kvs2 hwf.2 lvl
    simp only [fuelMembers, printObjTail, List.length_cons, List.length_append,
      indent, List.length_replicate, escString]
    omega

end

/-- The first character of a printed value is never whitespace and never a
closing bracket. -/
theorem printJ_head (j : Json) (hwf : wfJson j = true) (lvl : Nat) :
    ∃ c r, printJ lvl j = c :: r ∧ jsonWS c = false ∧
      ¬ c = ']' ∧ ¬ c = '}' := by
  cases j with
  | null => exact ⟨'n', _, rfl, by decide, by decide, by decide⟩
  | bool b =>
    cases b
    · exact ⟨'f', _, rfl, by decide, by decide, by decide⟩
    · exact ⟨'t', _, rfl, by decide, by decide, by decide⟩
  | int i =>
    obtain ⟨c, r, he, hc⟩ := intChars_head i
    have hcn : c.toNat = 45 ∨ (48 ≤ c.toNat ∧ c.toNat ≤ 57) := by
      rcases hc with hd | hd
      · right
        simpa [isDig] using hd
      · left
        rw [hd]
        rfl
    have hne : ∀ d : Char, d.toNat ≠ c.toNat → ¬ c = d := by
      intro d hd he2
      exact hd (by rw [he2])
    refine ⟨c, r, by simpa [printJ, printAtom] using he, ?_, ?_, ?_⟩
    · simp only [jsonWS, decide_eq_false_iff_not]
      rintro (h | h | h | h) <;> rw [h] at hcn <;> revert hcn <;> decide
    · exact hne _ (by
        have : (']' : Char).toNat = 93 := rfl
        omega)
    · exact hne _ (by
        have : ('}' : Char).toNat = 125 := rfl
        omega)
  | fnum neg ip fp ep => simp [wfJson] at hwf
  | nan => simp [wfJson] at hwf
  | inf b => simp [wfJson] at hwf
  | str s => exact ⟨'"', _, rfl, by decide, by decide, by decide⟩
  | arr xs =>
    cases xs with
    | nil => exact ⟨'[', _, rfl, by decide, by decide, by decide⟩
    | cons x xs2 => exact ⟨'[', _, rfl, by decide, by decide, by decide⟩
  | obj kvs =>
    cases kvs with
    | nil => exact ⟨'{', _, rfl, by decide, by decide, by decide⟩
    | cons p kvs2 =>
      obtain ⟨k, v⟩ := p
      exact ⟨'{', _, rfl, by decide, by decide, by decide⟩

/-! ## The print/parse round trip -/

theorem keysNodupB_cons {k : String} {v : Json} {kvs : List (String × Json)}
    (h : keysNodupB ((k, v) :: kvs) = true) :
    keyMem k kvs = false ∧ keysNodupB kvs = true := by
  simp only [keysNodupB, Bool.and_eq_true, Bool.not_eq_true'] at h
  exact h

theorem json_sizeOf_pos (j : Json) : 1 ≤ sizeOf j := by
  cases j <;> simp <;> omega

theorem list_sizeOf_pos {α : Type} [SizeOf α] (l : List α) : 1 ≤ sizeOf l := by
  cases l with
  | nil => simp
  | cons x xs =>
    simp
    omega

/-- Round trip of the indent printer and the decoder, by strong induction
on the size of the value. -/
theorem roundTrip_aux : ∀ N : Nat,
    (∀ j : Json, sizeOf j ≤ N → wfJson j = true → ∀ (lvl : Nat)
      (rest : List Char) (fuel : Nat), fuelJ j ≤ fuel → numSafe rest →
      parseValue fuel (printJ lvl j ++ rest) = some (j, rest)) ∧
    (∀ (x : Json) (xs : List Json), sizeOf x + sizeOf xs ≤ N →
      wfJson x = true → wfItems xs = true → ∀ (lvl : Nat) (rest : List Char)
      (fuel : Nat), fuelItems (x :: xs) ≤ fuel →
      parseItems fuel (printJ (lvl + 1) x ++ (printArrTail (lvl + 1) xs ++
        '\n' :: (indent lvl ++ ']' :: rest))) = some (x :: xs, rest)) ∧
    (∀ (k : String) (v : Json) (kvs : List (String × Json)),
      sizeOf v + sizeOf kvs ≤ N → wfJson v = true → wfMembers kvs = true →
      keysNodupB ((k, v) :: kvs) = true → ∀ (lvl : Nat) (rest : List Char)
      (fuel : Nat), fuelMembers ((k, v) :: kvs) ≤ fuel →
      parseMembers fuel ('"' :: (escList k.data ++ '"' :: (':' :: ' ' ::
        (printJ (lvl + 1) v ++ (printObjTail (lvl + 1) kvs ++
          '\n' :: (indent lvl ++ '}' :: rest)))))) =
        some ((k, v) :: kvs, rest)) := by
  intro N
  induction N with
  | zero =>
    refine ⟨?_, ?_, ?_⟩
    · intro j hj
      have := json_sizeOf_pos j
      omega
    · intro x xs hx
      have := json_sizeOf_pos x
      omega
    · intro k v kvs hv
      have := json_sizeOf_pos v
      omega
  | succ N ih =>
    obtain ⟨ihV, ihI, ihM⟩ := ih
    refine ⟨?_, ?_, ?_⟩
    · -- values
      intro j hsz hwf lvl rest fuel hf hr
      have hfp := fuelJ_pos j
      cases fuel with
      | zero => omega
      | succ f =>
      cases j with
      | null => exact parseValue_null f rest
      | bool b =>
        cases b
        · exact parseValue_false f rest
        · exact parseValue_true f rest
      | int i => exact parseValue_int hr
      | fnum neg ip fp ep => simp [wfJson] at hwf
      | nan => simp [wfJson] at hwf
      | inf b => simp [wfJson] at hwf
      | str s =>
        have hsh : printJ lvl (Json.str s) ++ rest =
            '"' :: (escList s.data ++ '"' :: rest) := by
          simp [printJ, printAtom, escString]
        rw [hsh]
        exact parseValue_str (@scanString_key s.data rest)
      | arr xs =>
        cases xs with
        | nil =>
          have hsh : printJ lvl (Json.arr []) ++ rest = '[' :: (']' :: rest) := rfl
          rw [hsh]
          exact parseValue_arr_nil (skipWS_not (by decide))
        | cons x xs2 =>
          simp only [wfJson, wfItems, Bool.and_eq_true] at hwf
          obtain ⟨cx, rx, hex, hwsx, hbrx, -⟩ := printJ_head x hwf.1 (lvl + 1)
          have hsh : printJ lvl (Json.arr (x :: xs2)) ++ rest =
              '[' :: ('\n' :: (indent (lvl + 1) ++ (printJ (lvl + 1) x ++
                (printArrTail (lvl + 1) xs2 ++
                  '\n' :: (indent lvl ++ ']' :: rest))))) := by
            simp [printJ, List.append_assoc]
          rw [hsh]
          have hskip : skipWS ('\n' :: (indent (lvl + 1) ++ (printJ (lvl + 1) x ++
              (printArrTail (lvl + 1) xs2 ++ '\n' :: (indent lvl ++ ']' :: rest))))) =
              cx :: (rx ++ (printArrTail (lvl + 1) xs2 ++
                '\n' :: (indent lvl ++ ']' :: rest))) := by
            rw [skipWS_indent, hex]
            exact skipWS_not hwsx
          have hszx : sizeOf x + sizeOf xs2 ≤ N := by
            simp only [Json.arr.sizeOf_spec, List.cons.sizeOf_spec] at hsz
            omega
          have hitems : parseItems f (cx :: (rx ++ (printArrTail (lvl + 1) xs2 ++
              '\n' :: (indent lvl ++ ']' :: rest)))) = some (x :: xs2, rest) := by
            have hsh2 : cx :: (rx ++ (printArrTail (lvl + 1) xs2 ++
                '\n' :: (indent lvl ++ ']' :: rest))) =
                printJ (lvl + 1) x ++ (printArrTail (lvl + 1) xs2 ++
                  '\n' :: (indent lvl ++ ']' :: rest)) := by
              rw [hex]
              rfl
            rw [hsh2]
            exact ihI x xs2 hszx hwf.1 hwf.2 lvl rest f
              (by simp only [fuelJ] at hf; omega)
          exact parseValue_arr_cons hskip hbrx hitems
      | obj kvs =>
        cases kvs with
        | nil =>
          have hsh : printJ lvl (Json.obj []) ++ rest = '{' :: ('}' :: rest) := rfl
          rw [hsh]
          exact parseValue_obj_nil (skipWS_not (by decide))
        | cons p kvs2 =>
          obtain ⟨k, v⟩ := p
          simp only [wfJson, wfMembers, Bool.and_eq_true] at hwf
          have hsh : printJ lvl (Json.obj ((k, v) :: kvs2)) ++ rest =
              '{' :: ('\n' :: (indent (lvl + 1) ++ ('"' :: (escList k.data ++
                '"' :: (':' :: ' ' :: (printJ (lvl + 1) v ++
                  (printObjTail (lvl + 1) kvs2 ++
                    '\n' :: (indent lvl ++ '}' :: rest)))))))) := by
            simp [printJ, escString, List.append_assoc]
          rw [hsh]
          have hskip : skipWS ('\n' :: (indent (lvl + 1) ++ ('"' :: (escList k.data ++
              '"' :: (':' :: ' ' :: (printJ (lvl + 1) v ++
                (printObjTail (lvl + 1) kvs2 ++
                  '\n' :: (indent lvl ++ '}' :: rest)))))))) =
              '"' :: (escList k.data ++ '"' :: (':' :: ' ' :: (printJ (lvl + 1) v ++
                (printObjTail (lvl + 1) kvs2 ++
                  '\n' :: (indent lvl ++ '}' :: rest))))) := by
            rw [skipWS_indent]
            exact skipWS_not (by decide)
          have hszv : sizeOf v + sizeOf kvs2 ≤ N := by
            simp only [Json.obj.sizeOf_spec, List.cons.sizeOf_spec,
              Prod.mk.sizeOf_spec] at hsz
            omega
          have hmem := ihM k v kvs2 hszv hwf.2.1 hwf.2.2 hwf.1 lvl rest f
            (by simp only [fuelJ] at hf; omega)
          exact parseValue_obj_cons hskip (by decide) hmem
    · -- array items
      intro x xs hsz hwx hwxs lvl rest fuel hf
      cases fuel with
      | zero => simp [fuelItems] at hf
      | succ f =>
      have hszx : sizeOf x ≤ N := by
        have := list_sizeOf_pos xs
        omega
      cases xs with
      | nil =>
        have hv : parseValue f (printJ (lvl + 1) x ++ (printArrTail (lvl + 1) [] ++
            '\n' :: (indent lvl ++ ']' :: rest))) =
            some (x, printArrTail (lvl + 1) [] ++
              '\n' :: (indent lvl ++ ']' :: rest)) :=
          ihV x hszx hwx (lvl + 1) _ f
            (by simp only [fuelItems] at hf; omega)
            (by simp only [printArrTail, List.nil_append]; exact numSafe_newline _)
        refine parseItems_last hv ?_
        simp only [printArrTail, List.nil_append]
        rw [skipWS_indent]
        exact skipWS_not (by decide)
      | cons y ys =>
        simp only [wfItems, Bool.and_eq_true] at hwxs
        have hv : parseValue f (printJ (lvl + 1) x ++
            (printArrTail (lvl + 1) (y :: ys) ++
              '\n' :: (indent lvl ++ ']' :: rest))) =
            some (x, printArrTail (lvl + 1) (y :: ys) ++
              '\n' :: (indent lvl ++ ']' :: rest)) :=
          ihV x hszx hwx (lvl + 1) _ f
            (by simp only [fuelItems] at hf; omega)
            (by simp only [printArrTail, List.cons_append]; exact numSafe_comma _)
        have hcomma : skipWS (printArrTail (lvl + 1) (y :: ys) ++
            '\n' :: (indent lvl ++ ']' :: rest)) =
            ',' :: ('\n' :: (indent (lvl + 1) ++ (printJ (lvl + 1) y ++
              (printArrTail (lvl + 1) ys ++
                '\n' :: (indent lvl ++ ']' :: rest))))) := by
          have hsh : printArrTail (lvl + 1) (y :: ys) ++
              '\n' :: (indent lvl ++ ']' :: rest) =
              ',' :: ('\n' :: (indent (lvl + 1) ++ (printJ (lvl + 1) y ++
                (printArrTail (lvl + 1) ys ++
                  '\n' :: (indent lvl ++ ']' :: rest))))) := by
            simp [printArrTail, List.append_assoc]
          rw [hsh]
          exact skipWS_not (by decide)
        obtain ⟨cy, ry, hey, hwsy, -, -⟩ := printJ_head y hwxs.1 (lvl + 1)
        have hskip2 : skipWS ('\n' :: (indent (lvl + 1) ++ (printJ (lvl + 1) y ++
            (printArrTail (lvl + 1) ys ++ '\n' :: (indent lvl ++ ']' :: rest))))) =
            printJ (lvl + 1) y ++ (printArrTail (lvl + 1) ys ++
              '\n' :: (indent lvl ++ ']' :: rest)) := by
          rw [skipWS_indent, hey]
          exact skipWS_not hwsy
        have hszy : sizeOf y + sizeOf ys ≤ N := by
          have := json_sizeOf_pos x
          simp only [List.cons.sizeOf_spec] at hsz
          omega
        have hp : parseItems f (skipWS ('\n' :: (indent (lvl + 1) ++
            (printJ (lvl + 1) y ++ (printArrTail (lvl + 1) ys ++
              '\n' :: (indent lvl ++ ']' :: rest)))))) = some (y :: ys, rest) := by
          rw [hskip2]
          exact ihI y ys hszy hwxs.1 hwxs.2 lvl rest f
            (by simp only [fuelItems] at hf ⊢; omega)
        exact parseItems_cons hv hcomma hp
    · -- object members
      intro k v kvs hsz hwv hwk hnd lvl rest fuel hf
      cases fuel with
      | zero => simp [fuelMembers] at hf
      | succ f =>
      have hk := @scanString_key k.data
        (':' :: ' ' :: (printJ (lvl + 1) v ++ (printObjTail (lvl + 1) kvs ++
          '\n' :: (indent lvl ++ '}' :: rest))))
      have h1 : skipWS (':' :: ' ' :: (printJ (lvl + 1) v ++
          (printObjTail (lvl + 1) kvs ++ '\n' :: (indent lvl ++ '}' :: rest)))) =
          ':' :: (' ' :: (printJ (lvl + 1) v ++ (printObjTail (lvl + 1) kvs ++
            '\n' :: (indent lvl ++ '}' :: rest)))) :=
        skipWS_not (by decide)
      obtain ⟨cv, rv, hev, hwsv, -, -⟩ := printJ_head v hwv (lvl + 1)
      have hskipv : skipWS (' ' :: (printJ (lvl + 1) v ++
          (printObjTail (lvl + 1) kvs ++ '\n' :: (indent lvl ++ '}' :: rest)))) =
          printJ (lvl + 1) v ++ (printObjTail (lvl + 1) kvs ++
            '\n' :: (indent lvl ++ '}' :: rest)) := by
        rw [skipWS_ws (by decide), hev]
        exact skipWS_not hwsv
      have heta : String.mk k.data = k := rfl
      have hszv : sizeOf v ≤ N := by
        have := list_sizeOf_pos kvs
        omega
      cases kvs with
      | nil =>
        have hv : parseValue f (skipWS (' ' :: (printJ (lvl + 1) v ++
            (printObjTail (lvl + 1) [] ++ '\n' :: (indent lvl ++ '}' :: rest))))) =
            some (v, printObjTail (lvl + 1) [] ++
              '\n' :: (indent lvl ++ '}' :: rest)) := by
          rw [hskipv]
          exact ihV v hszv hwv (lvl + 1) _ f
            (by simp only [fuelMembers] at hf; omega)
            (by simp only [printObjTail, List.nil_append]; exact numSafe_newline _)
        have h2 : skipWS (printObjTail (lvl + 1) [] ++
            '\n' :: (indent lvl ++ '}' :: rest)) = '}' :: rest := by
          simp only [printObjTail, List.nil_append]
          rw [skipWS_indent]
          exact skipWS_not (by decide)
        have := parseMembers_last hk h1 hv h2
        rw [heta] at this
        exact this
      | cons p kvs2 =>
        obtain ⟨k2, v2⟩ := p
        simp only [wfMembers, Bool.and_eq_true] at hwk
        have hndk := keysNodupB_cons hnd
        have hv : parseValue f (skipWS (' ' :: (printJ (lvl + 1) v ++
            (printObjTail (lvl + 1) ((k2, v2) :: kvs2) ++
              '\n' :: (indent lvl ++ '}' :: rest))))) =
            some (v, printObjTail (lvl + 1) ((k2, v2) :: kvs2) ++
              '\n' :: (indent lvl ++ '}' :: rest)) := by
          rw [hskipv]
          exact ihV v hszv hwv (lvl + 1) _ f
            (by simp only [fuelMembers] at hf; omega)
            (by simp only [printObjTail, List.cons_append]; exact numSafe_comma _)
        have h2 : skipWS (printObjTail (lvl + 1) ((k2, v2) :: kvs2) ++
            '\n' :: (indent lvl ++ '}' :: rest)) =
            ',' :: ('\n' :: (indent (lvl + 1) ++ ('"' :: (escList k2.data ++
              '"' :: (':' :: ' ' :: (printJ (lvl + 1) v2 ++
                (printObjTail (lvl + 1) kvs2 ++
                  '\n' :: (indent lvl ++ '}' :: rest)))))))) := by
          have hsh : printObjTail (lvl + 1) ((k2, v2) :: kvs2) ++
              '\n' :: (indent lvl ++ '}' :: rest) =
              ',' :: ('\n' :: (indent (lvl + 1) ++ ('"' :: (escList k2.data ++
                '"' :: (':' :: ' ' :: (printJ (lvl + 1) v2 ++
                  (printObjTail (lvl + 1) kvs2 ++
                    '\n' :: (indent lvl ++ '}' :: rest)))))))) := by
            simp [printObjTail, escString, List.append_assoc]
          rw [hsh]
          exact skipWS_not (by decide)
        have h3 : skipWS ('\n' :: (indent (lvl + 1) ++ ('"' :: (escList k2.data ++
            '"' :: (':' :: ' ' :: (printJ (lvl + 1) v2 ++
              (printObjTail (lvl + 1) kvs2 ++
                '\n' :: (indent lvl ++ '}' :: rest)))))))) =
            '"' :: (escList k2.data ++ '"' :: (':' :: ' ' ::
              (printJ (lvl + 1) v2 ++ (printObjTail (lvl + 1) kvs2 ++
                '\n' :: (indent lvl ++ '}' :: rest))))) := by
          rw [skipWS_indent]
          exact skipWS_not (by decide)
        have hszv2 : sizeOf v2 + sizeOf kvs2 ≤ N := by
          have := json_sizeOf_pos v
          simp only [List.cons.sizeOf_spec, Prod.mk.sizeOf_spec] at hsz
          omega
        have hp : parseMembers f ('"' :: (escList k2.data ++ '"' :: (':' :: ' ' ::
            (printJ (lvl + 1) v2 ++ (printObjTail (lvl + 1) kvs2 ++
              '\n' :: (indent lvl ++ '}' :: rest)))))) =
            some ((k2, v2) :: kvs2, rest) :=
          ihM k2 v2 kvs2 hszv2 hwk.1 hwk.2
            (by
              simp only [keysNodupB, Bool.and_eq_true, Bool.not_eq_true'] at hnd ⊢
              exact hnd.2)
            lvl rest f (by simp only [fuelMembers] at hf ⊢; omega)
        have := parseMembers_cons hk h1 hv h2 h3 hp
        rw [heta, consMember_fresh hndk.1] at this
        exact this

theorem parseValue_printJ (j : Json) (hwf : wfJson j = true) (lvl : Nat)
    (rest : List Char) (fuel : Nat) (hf : fuelJ j ≤ fuel) (hr : numSafe rest) :
    parseValue fuel (printJ lvl j ++ rest) = some (j, rest) :=
  (roundTrip_aux (sizeOf j)).1 j (le_refl _) hwf lvl rest fuel hf hr


/-! ## Corollaries: full json.loads / json.dumps round trip -/

/-- Decoding a pretty-printed well-formed value returns the value. -/
theorem jsonParse_printJ (j : Json) (hwf : wfJson j = true) :
    jsonParse (String.mk (printJ 0 j)) = some j := by
  obtain ⟨c, r, he, hws, -, -⟩ := printJ_head j hwf 0
  have hfuel : fuelJ j ≤ (printJ 0 j).length + 1 := by
    have h1 := fuelJ_le_printJ j hwf 0
    omega
  have hp : parseValue ((printJ 0 j).length + 1) (printJ 0 j ++ []) =
      some (j, []) :=
    parseValue_printJ j hwf 0 [] ((printJ 0 j).length + 1) hfuel trivial
  rw [List.append_nil] at hp
  have hskip : skipWS (printJ 0 j) = printJ 0 j := by
    rw [he]
    exact skipWS_not hws
  have hshow : jsonParse (String.mk (printJ 0 j)) =
      match parseValue ((printJ 0 j).length + 1) (skipWS (printJ 0 j)) with
      | some (v, r2) => if skipWS r2 = [] then some v else none
      | none => none := rfl
  rw [hshow, hskip, hp]
  rfl

/-- The JSON object built for one task is well formed: its five keys are
distinct and every value is a scalar. -/
theorem wfJson_taskToJson (t : Task) : wfJson (taskToJson t) = true := by
  cases hd : t.due
  all_goals simp only [taskToJson, hd, wfJson, Bool.and_eq_true]
  all_goals exact ⟨rfl, by simp [wfMembers, wfJson]⟩

theorem wfItems_map_taskToJson (ts : List Task) :
    wfItems (ts.map taskToJson) = true := by
  induction ts with
  | nil => simp [wfItems]
  | cons t ts2 ih => simp [wfItems, wfJson_taskToJson t, ih]

theorem wfJson_tasksToJson (ts : List Task) :
    wfJson (tasksToJson ts) = true := by
  simp [tasksToJson, wfJson, wfItems_map_taskToJson ts]

/-- Loading a store file just written by `save_tasks` recovers the task
collection exactly. -/
theorem load_dumpTasks (ts : List Task) :
    load_tasks (some (dumpTasks ts)) = tasksToJson ts := by
  simp only [load_tasks, dumpTasks, save_tasks,
    jsonParse_printJ (tasksToJson ts) (wfJson_tasksToJson ts)]

/-! ## The cmd_done / cmd_undone search loop over a dumped store -/

/-- The JSON object of a task decomposes: its member list yields the id
under `objGet`, and replacing its `done` value gives the object of the
updated task. -/
theorem taskToJson_parts (t : Task) (val : Bool) :
    ∃ kvs, taskToJson t = Json.obj kvs ∧
      objGet kvs "id" = some (Json.int t.id) ∧
      Json.obj (objSet kvs "done" (Json.bool val)) =
        taskToJson (Task.mk t.id t.text t.due val t.created_at) :=
  ⟨_, rfl, rfl, rfl⟩

/-- A matching head task is marked and the tail is kept as is. -/
theorem markItems_hit (idv : Int) (val : Bool) (t : Task) (rest : List Json)
    (h : t.id = idv) :
    markItems idv val (taskToJson t :: rest) =
      some (some (taskToJson (Task.mk t.id t.text t.due val t.created_at) :: rest)) := by
  obtain ⟨kvs, he, hget, hset⟩ := taskToJson_parts t val
  have hcond : pyEqInt (Json.int t.id) idv = true := by simp [pyEqInt, h]
  rw [he]
  simp [markItems, hget, hcond, hset]

/-- A non-matching head task is kept and the loop's verdict on the tail is
passed through (not-found case). -/
theorem markItems_miss_notFound (idv : Int) (val : Bool) (t : Task)
    (rest : List Json) (h : ¬ t.id = idv)
    (hrest : markItems idv val rest = some none) :
    markItems idv val (taskToJson t :: rest) = some none := by
  obtain ⟨kvs, he, hget, -⟩ := taskToJson_parts t val
  have hcond : pyEqInt (Json.int t.id) idv = false := by simp [pyEqInt, h]
  rw [he]
  simp [markItems, hget, hcond, hrest]

/-- A non-matching head task is kept in front of the marked tail. -/
theorem markItems_miss_found (idv : Int) (val : Bool) (t : Task)
    (rest rest2 : List Json) (h : ¬ t.id = idv)
    (hrest : markItems idv val rest = some (some rest2)) :
    markItems idv val (taskToJson t :: rest) =
      some (some (taskToJson t :: rest2)) := by
  obtain ⟨kvs, he, hget, -⟩ := taskToJson_parts t val
  have hcond : pyEqInt (Json.int t.id) idv = false := by simp [pyEqInt, h]
  rw [he]
  simp [markItems, hget, hcond, hrest]

/-- The loop over a store holding no task with the sought id falls through
and reports not-found. -/
theorem markItems_absent (idv : Int) (val : Bool) :
    ∀ ts : List Task, idv ∉ taskIds ts →
      markItems idv val (ts.map taskToJson) = some none := by
  intro ts
  induction ts with
  | nil => intro h; rfl
  | cons t ts2 ih =>
    intro h
    simp only [taskIds, List.map_cons, List.mem_cons] at h
    push_neg at h
    rw [List.map_cons]
    exact markItems_miss_notFound idv val t _ (fun he => h.1 he.symm) (ih h.2)

/-- The loop over a store holding the sought id (first occurrence after
`pre`) marks exactly that task and keeps everything else. -/
theorem markItems_present (val : Bool) :
    ∀ (pre : List Task) (t : Task) (post : List Task), t.id ∉ taskIds pre →
      markItems t.id val ((pre ++ t :: post).map taskToJson) =
        some (some ((pre ++ (Task.mk t.id t.text t.due val t.created_at) :: post).map
          taskToJson)) := by
  intro pre
  induction pre with
  | nil =>
    intro t post h
    simp only [List.nil_append, List.map_cons]
    exact markItems_hit t.id val t _ rfl
  | cons p pre2 ih =>
    intro t post h
    simp only [taskIds, List.map_cons, List.mem_cons] at h
    push_neg at h
    simp only [List.cons_append, List.map_cons]
    exact markItems_miss_found t.id val p _ _ (fun he => h.1 he.symm)
      (ih t post h.2)

/-! ## Claim theorems for persistence and the HTTP endpoint -/

/-- C3: `load_tasks` never raises - it is total on every file state: a
missing store file yields the empty collection, a present but unparseable
one silently yields the empty collection, and a parseable one yields
exactly the parsed JSON. -/
theorem claim_C3 :
    load_tasks none = Json.arr [] ∧
    (∀ content : String, jsonParse content = none →
      load_tasks (some content) = Json.arr []) ∧
    (∀ (content : String) (j : Json), jsonParse content = some j →
      load_tasks (some content) = j) := by
  refine ⟨rfl, ?_, ?_⟩
  · intro content h
    simp [load_tasks, h]
  · intro content j h
    simp [load_tasks, h]

/-- Witness for C3: the invalid-JSON clause applied to the concrete file
content `"nonsense"`. -/
theorem claim_C3_witness : load_tasks (some "nonsense") = Json.arr [] :=
  claim_C3.2.1 "nonsense" (by rfl)

/-- C4: marking an id absent from the store (done or undone) reports a
not-found outcome without raising and leaves the store file byte-for-byte
unchanged - no write happens. -/
theorem claim_C4 (ts : List Task) (idv : Int) (h : idv ∉ taskIds ts) :
    cmd_done_file idv (some (dumpTasks ts)) =
      (some (dumpTasks ts), MarkOutcome.notFound) ∧
    cmd_undone_file idv (some (dumpTasks ts)) =
      (some (dumpTasks ts), MarkOutcome.notFound) := by
  have key : ∀ val, cmd_mark_file idv val (some (dumpTasks ts)) =
      (some (dumpTasks ts), MarkOutcome.notFound) := by
    intro val
    simp only [cmd_mark_file, load_dumpTasks, tasksToJson]
    rw [markItems_absent idv val ts h]
  exact ⟨key true, key false⟩

/-- Witness for C4: marking id 2 in a one-task store holding only id 1. -/
theorem claim_C4_witness :
    cmd_done_file 2 (some (dumpTasks [⟨1, "a", none, false, "t"⟩])) =
      (some (dumpTasks [⟨1, "a", none, false, "t"⟩]),
        MarkOutcome.notFound) :=
  (claim_C4 [⟨1, "a", none, false, "t"⟩] 2 (by decide)).1

/-- C5: the load-then-save round trip is a no-op on the bytes of any store
file previously written by `save_tasks` from a task collection. -/
theorem claim_C5 (ts : List Task) :
    save_tasks (load_tasks (some (dumpTasks ts))) = dumpTasks ts := by
  rw [load_dumpTasks]
  rfl

/-- C6, counterexample.  The claim says every parsed body lacking a
`tasks`/`edges` array gets a 400 response.  The body `"42"` is valid JSON
and certainly lacks both arrays, but `payload.get` on the parsed integer
raises `AttributeError`: the handler crashes without sending any response
(the stored document is still untouched). -/
theorem claim_C6_counterexample :
    handle_post "42" (some "prev") = (HttpReply.crashed, some "prev") ∧
    HttpReply.crashed ≠ HttpReply.err 400 ∧
    HttpReply.crashed ≠ HttpReply.noContent :=
  ⟨rfl, fun h => HttpReply.noConfusion h, fun h => HttpReply.noConfusion h⟩

/-- C6, amended: whenever the reply is not the 204 success the stored
document is unmodified; an unparseable body gets a 400; a parsed object
whose `tasks` or `edges` value is not an array gets a 400; but a parsed
non-object body crashes the handler (no 400 is sent). -/
theorem claim_C6_amended (body : String) (file : Option String) :
    ((handle_post body file).1 = HttpReply.noContent ∨
      (handle_post body file).2 = file) ∧
    (jsonParse body = none → handle_post body file = (HttpReply.err 400, file)) ∧
    (∀ kvs, jsonParse body = some (Json.obj kvs) →
      ((∀ l, pyGet kvs "tasks" (Json.arr []) ≠ Json.arr l) ∨
        (∀ l, pyGet kvs "edges" (Json.arr []) ≠ Json.arr l)) →
      handle_post body file = (HttpReply.err 400, file)) ∧
    (∀ j, jsonParse body = some j → (∀ kvs, j ≠ Json.obj kvs) →
      handle_post body file = (HttpReply.crashed, file)) := by
  refine ⟨?_, ?_, ?_, ?_⟩
  · cases hp : jsonParse body with
    | none => exact Or.inr (by simp [handle_post, hp])
    | some j =>
      cases j with
      | obj kvs =>
        cases hpt : pyGet kvs "tasks" (Json.arr []) <;>
          cases hpe : pyGet kvs "edges" (Json.arr []) <;>
            first
              | (left
                 simp [handle_post, hp, hpt, hpe]
                 done)
              | (right
                 simp [handle_post, hp, hpt, hpe]
                 done)
      | null => exact Or.inr (by simp [handle_post, hp])
      | bool b => exact Or.inr (by simp [handle_post, hp])
      | int i => exact Or.inr (by simp [handle_post, hp])
      | fnum a b c d => exact Or.inr (by simp [handle_post, hp])
      | nan => exact Or.inr (by simp [handle_post, hp])
      | inf b => exact Or.inr (by simp [handle_post, hp])
      | str s => exact Or.inr (by simp [handle_post, hp])
      | arr xs => exact Or.inr (by simp [handle_post, hp])
  · intro h
    simp [handle_post, h]
  · intro kvs hp hbad
    cases hpt : pyGet kvs "tasks" (Json.arr []) <;>
      cases hpe : pyGet kvs "edges" (Json.arr []) <;>
        first
          | (simp [handle_post, hp, hpt, hpe]
             done)
          | (rcases hbad with hb | hb
             exacts [absurd hpt (hb _), absurd hpe (hb _)])
  · intro j hp hno
    cases j with
    | obj kvs => exact absurd rfl (hno kvs)
    | null => simp [handle_post, hp]
    | bool b => simp [handle_post, hp]
    | int i => simp [handle_post, hp]
    | fnum a b c d => simp [handle_post, hp]
    | nan => simp [handle_post, hp]
    | inf b => simp [handle_post, hp]
    | str s => simp [handle_post, hp]
    | arr xs => simp [handle_post, hp]

/-- Witness for C6: the amended bad-payload clause applied to the concrete
body whose `tasks` value is the string `"x"`. -/
theorem claim_C6_witness :
    handle_post "\x7b\"tasks\": \"x\", \"edges\": []\x7d" (some "prev") =
      (HttpReply.err 400, some "prev") := by
  have h := (claim_C6_amended "\x7b\"tasks\": \"x\", \"edges\": []\x7d"
    (some "prev")).2.2.1
  refine h [("tasks", Json.str "x"), ("edges", Json.arr [])] (by rfl)
    (Or.inl ?_)
  intro l hl
  exact Json.noConfusion hl

/-- C7: a POST whose parsed body is an object with array `tasks` and
`edges` values (missing keys defaulting to `[]`) overwrites the document
file with exactly the two-key object, discards every other top-level key,
and replies with a bodyless 204; a subsequent GET then returns exactly the
posted document. -/
theorem claim_C7 (body : String) (file : Option String)
    (kvs : List (String × Json)) (ts es : List Json)
    (hparse : jsonParse body = some (Json.obj kvs))
    (hts : pyGet kvs "tasks" (Json.arr []) = Json.arr ts)
    (hes : pyGet kvs "edges" (Json.arr []) = Json.arr es)
    (hwt : wfItems ts = true) (hwe : wfItems es = true) :
    handle_post body file =
      (HttpReply.noContent, some (String.mk (printJ 0 (docJson ts es)))) ∧
    handle_get (handle_post body file).2 = send_json (docJson ts es) := by
  have hpost : handle_post body file =
      (HttpReply.noContent, some (String.mk (printJ 0 (docJson ts es)))) := by
    simp only [handle_post, hparse, hts, hes]
  have hnd : keysNodupB [("tasks", Json.arr ts), ("edges", Json.arr es)] =
      true := rfl
  have hwf : wfJson (docJson ts es) = true := by
    simp [docJson, wfJson, wfMembers, hnd, hwt, hwe]
  have hget : handle_get (some (String.mk (printJ 0 (docJson ts es)))) =
      send_json (docJson ts es) := by
    simp only [handle_get, jsonParse_printJ _ hwf]
  rw [hpost]
  exact ⟨rfl, hget⟩

/-- Witness for C7: posting `\x7b"tasks": [1], "edges": [], "junk": 7\x7d`
stores the two-key document (the extra `junk` key is dropped) and the
following GET serves it back. -/
theorem claim_C7_witness :
    handle_post "\x7b\"tasks\": [1], \"edges\": [], \"junk\": 7\x7d" none =
      (HttpReply.noContent,
        some (String.mk (printJ 0 (docJson [Json.int 1] [])))) ∧
    handle_get (handle_post
        "\x7b\"tasks\": [1], \"edges\": [], \"junk\": 7\x7d" none).2 =
      send_json (docJson [Json.int 1] []) :=
  claim_C7 "\x7b\"tasks\": [1], \"edges\": [], \"junk\": 7\x7d" none
    [("tasks", Json.arr [Json.int 1]), ("edges", Json.arr []),
      ("junk", Json.int 7)] [Json.int 1] [] (by rfl) (by rfl) (by rfl)
    (by simp [wfItems, wfJson]) (by simp [wfItems])

/-- C8: GET of the workflow document replies 404 when the file is missing,
500 when its content is unparseable, and otherwise 200 with the parsed
document, a JSON content type, and `Content-Length` equal to the byte
length of the compact-printed body. -/
theorem claim_C8 (file : Option String) :
    (file = none → handle_get file = HttpReply.err 404) ∧
    (∀ content, file = some content → jsonParse content = none →
      handle_get file = HttpReply.err 500) ∧
    (∀ content j, file = some content → jsonParse content = some j →
      handle_get file =
        HttpReply.ok j (printCompact j) (printCompact j).utf8ByteSize) := by
  refine ⟨?_, ?_, ?_⟩
  · intro h
    rw [h]
    rfl
  · intro c h hp
    subst h
    simp [handle_get, hp]
  · intro c j h hp
    subst h
    simp [handle_get, send_json, hp]

/-- Witness for C8: GET over the stored content `"[1, 2]"`. -/
theorem claim_C8_witness :
    handle_get (some "[1, 2]") =
      HttpReply.ok (Json.arr [Json.int 1, Json.int 2])
        (printCompact (Json.arr [Json.int 1, Json.int 2]))
        (printCompact (Json.arr [Json.int 1, Json.int 2])).utf8ByteSize :=
  (claim_C8 (some "[1, 2]")).2.2 "[1, 2]" _ rfl (by rfl)

/-- C10: marking an id that occurs in the store (uniquely - ids are nodup
by the C9 invariant; the loop takes the first occurrence) rewrites the
store file to the dump of the same collection with only that task's `done`
field replaced: its other fields, every other task, and the list order are
unchanged, and the outcome is the marked confirmation. -/
theorem claim_C10 (pre post : List Task) (t : Task) (val : Bool)
    (hpre : t.id ∉ taskIds pre) (hpost : t.id ∉ taskIds post) :
    cmd_mark_file t.id val (some (dumpTasks (pre ++ t :: post))) =
      (some (dumpTasks (pre ++ (Task.mk t.id t.text t.due val t.created_at) :: post)),
        MarkOutcome.marked) := by
  simp only [cmd_mark_file, load_dumpTasks, tasksToJson]
  rw [markItems_present val pre t post hpre]
  rfl

/-- Witness for C10: marking id 2 done in the two-task store `[id 1, id 2]`
rewrites the file to the dump with task 2 done and all else unchanged. -/
theorem claim_C10_witness :
    cmd_mark_file 2 true (some (dumpTasks [⟨1, "a", none, false, "t"⟩,
        ⟨2, "b", some "14:30", false, "t2"⟩])) =
      (some (dumpTasks [⟨1, "a", none, false, "t"⟩,
        ⟨2, "b", some "14:30", true, "t2"⟩]), MarkOutcome.marked) :=
  claim_C10 [⟨1, "a", none, false, "t"⟩] []
    ⟨2, "b", some "14:30", false, "t2"⟩ true (by decide) (by decide)

end TaskWeb